import Mathlib

/-!
Verification of the three-stage reconciliation-and-allocation engine of the
ag_res repository: the region-level acreage reconciler
(scripts/aci_reallocate_pixels.py, reallocate_acres), the cascading donor
top-up pass (scripts/label_area_deltas.py, main), the sub-region distributor
(scripts/aci_reallocate_pixels.py, distribute_back_to_municipalities) and the
pixel materializer (scripts/raster_build.py, assign_within_muni).

Quantities (acres, hectares, pixel counts) are embedded as rationals; the
Python floats are modelled by exact arithmetic.  Tables are embedded as lists
of records, one structure per pandas row shape.
-/

namespace AgRes

/-! ### Generic list helpers -/

/-- Update the element at index i when it exists, keeping the list otherwise
(the pandas idiom of writing one cell of a frame by row index). -/
def modifyAt (l : List α) (i : ℕ) (f : α → α) : List α :=
  match l[i]? with
  | some x => l.set i (f x)
  | none => l

/-- Executable minimum on rationals (the Python builtin min on two floats);
kept as a plain conditional so that concrete runs reduce in the kernel. -/
def qmin (a b : ℚ) : ℚ := if a ≤ b then a else b

/-- Executable maximum on rationals (the Python builtin max on two floats). -/
def qmax (a b : ℚ) : ℚ := if a ≤ b then b else a

/-! ### Region Reconciler: scripts/aci_reallocate_pixels.py, reallocate_acres

One row of the merged RM-by-Label table produced by preprocess_data: sensed
acres from the ACI summary, ground-truth acres from the MASC-imputed table,
and the precomputed difference column acres_diff = acres_aci - acres_masc. -/

structure MergedRow where
  label : String
  acres_aci : ℚ
  pixel_count : ℚ
  hectares : ℚ
  acres_masc : ℚ
  acres_diff : ℚ
deriving DecidableEq, Repr

instance : Inhabited MergedRow := ⟨⟨"", 0, 0, 0, 0, 0⟩⟩

/-- Sensed acres of the row at index j (zero row when out of range). -/
def aciAt (l : List MergedRow) (j : ℕ) : ℚ := (l.getD j default).acres_aci

/-- Ground-truth acres of the row at index j. -/
def mascAt (l : List MergedRow) (j : ℕ) : ℚ := (l.getD j default).acres_masc

/-- Case 1 of reallocate_acres: a category sensed as present but with zero
ground truth has its sensed acres, pixel count and hectares driven to zero.
The acres_diff column is left as it was (the source recomputes it only at the
end of the transfer pass). -/
def zeroFun (r : MergedRow) : MergedRow :=
  if 0 < r.acres_aci ∧ r.acres_masc = 0 then
    { r with acres_aci := 0, pixel_count := 0, hectares := 0 }
  else r

def zeroPass (rows : List MergedRow) : List MergedRow :=
  rows.map zeroFun

/-- Add q to the sensed acres of row i. -/
def addAci (rows : List MergedRow) (i : ℕ) (q : ℚ) : List MergedRow :=
  modifyAt rows i fun r => { r with acres_aci := r.acres_aci + q }

/-- Insert a donor into a list kept sorted by descending available surplus
(ties keep the incoming element first, matching a stable ordering). -/
def insertDesc (x : ℕ × ℚ) : List (ℕ × ℚ) → List (ℕ × ℚ)
  | [] => [x]
  | y :: ys => if y.2 ≤ x.2 then x :: y :: ys else y :: insertDesc x ys

/-- Sort the donor list by descending available surplus, as the source sorts
the surplus frame by acres_diff descending before draining it. -/
def sortDesc (l : List (ℕ × ℚ)) : List (ℕ × ℚ) := l.foldr insertDesc []

/-- The inner donor loop of reallocate_acres for one recipient row i with
remaining target t: walk the donor list in order; stop when the target is
filled, skip exhausted donors, otherwise move min(available, target) acres
from the donor row to the recipient row and decrement the donor pool.
Returns the updated table and the updated donor pool. -/
def serveOne (rows : List MergedRow) (i : ℕ) :
    ℚ → List (ℕ × ℚ) → List MergedRow × List (ℕ × ℚ)
  | _, [] => (rows, [])
  | t, (j, avail) :: rest =>
    if t ≤ 0 then (rows, (j, avail) :: rest)
    else if avail ≤ 0 then
      let res := serveOne rows i t rest
      (res.1, (j, avail) :: res.2)
    else
      let tk := qmin avail t
      let rows1 := addAci (addAci rows j (-tk)) i tk
      let res := serveOne rows1 i (t - tk) rest
      (res.1, (j, avail - tk) :: res.2)

/-- Indices of the missing rows (Case 2): zero sensed acres but positive
ground truth, evaluated on the table after the zeroing pass. -/
def missingIdx (rows1 : List MergedRow) : List ℕ :=
  (List.range rows1.length).filter fun i =>
    decide (aciAt rows1 i = 0 ∧ 0 < mascAt rows1 i)

/-- Indices of the surplus rows: sensed acres strictly above ground truth,
evaluated on the table after the zeroing pass. -/
def surplusIdx (rows1 : List MergedRow) : List ℕ :=
  (List.range rows1.length).filter fun i =>
    decide (mascAt rows1 i < aciAt rows1 i)

/-- The donor pool: surplus rows paired with their acres_diff column value,
sorted by descending difference (sort_values on acres_diff, ascending False). -/
def donorPool (rows1 : List MergedRow) : List (ℕ × ℚ) :=
  sortDesc ((surplusIdx rows1).map fun j => (j, (rows1.getD j default).acres_diff))

/-- The full surplus-to-deficit transfer pass: every missing row, in index
order, drains the donor pool; the target of each missing row is its
ground-truth acres read from the snapshot taken before the loop. -/
def transferPass (rows1 : List MergedRow) : List MergedRow :=
  ((missingIdx rows1).foldl (fun st i => serveOne st.1 i (mascAt rows1 i) st.2)
    (rows1, donorPool rows1)).1

/-- reallocate_acres for one region (one groupby("rm") slice): the zeroing
pass, then — only when both a missing category and a surplus category exist —
the surplus-to-deficit transfer pass over all missing rows, followed by a
recomputation of the acres_diff column. -/
def reallocateRegion (rows : List MergedRow) : List MergedRow :=
  let rows1 := zeroPass rows
  if (¬ missingIdx rows1 = []) ∧ (¬ surplusIdx rows1 = []) then
    (transferPass rows1).map fun r => { r with acres_diff := r.acres_aci - r.acres_masc }
  else rows1

/-! ### Cascading donor top-up: scripts/label_area_deltas.py, main

One row of the RM-by-Label table built in main: current ACI acres and the
MASC ground-truth target.  The taken_from_other, taken_from_pasture and
taken_from_canola columns of the source are report-only output columns that
are written but never read back by the pass, so they are not carried here;
the aci_acres and masc_acres columns fully determine every decision. -/

structure DeltaRow where
  label : String
  aci : ℚ
  masc : ℚ
deriving DecidableEq, Repr

instance : Inhabited DeltaRow := ⟨⟨"", 0, 0⟩⟩

/-- The take helper of label_area_deltas.main: locate the first row carrying
the donor label; when it exists and the requested amount is positive, give
min(amount, max(0, aci - masc)) and decrement the donor row when the gift is
positive.  Returns the gift and the updated table. -/
def takeFromLabel (rows : List DeltaRow) (lbl : String) (amount : ℚ) : ℚ × List DeltaRow :=
  match rows.findIdx? (fun r => r.label == lbl) with
  | none => (0, rows)
  | some i =>
    if amount ≤ 0 then (0, rows)
    else
      let r := rows.getD i default
      let give := qmin amount (qmax 0 (r.aci - r.masc))
      if 0 < give then (give, rows.set i { r with aci := r.aci - give })
      else (give, rows)

/-- One donor stage of the recipient loop: call take, and when the gift is
positive add it to the recipient row; the remaining need is decremented by
the gift.  Matches the give_other / give_past / give_can blocks. -/
def drawStage (rows : List DeltaRow) (i : ℕ) (lbl : String) (t : ℚ) :
    List DeltaRow × ℚ :=
  let res := takeFromLabel rows lbl t
  (if 0 < res.1 then modifyAt res.2 i (fun r => { r with aci := r.aci + res.1 })
   else res.2,
   t - res.1)

/-- The body of the recipient loop of label_area_deltas.main for recipient
row i: compute the current need, and when positive draw from Other crops,
then (when still needed) Pasture/forages, then Canola/rapeseed. -/
def topUpStep (rows : List DeltaRow) (i : ℕ) : List DeltaRow :=
  let r := rows.getD i default
  let need := r.masc - r.aci
  if need ≤ 0 then rows
  else
    let p1 := drawStage rows i "Other crops" need
    let p2 := if 0 < p1.2 then drawStage p1.1 i "Pasture/forages" p1.2 else p1
    let p3 := if 0 < p2.2 then drawStage p2.1 i "Canola/rapeseed" p2.2 else p2
    p3.1

/-- Recipient rows of one region group: indices whose ground truth exceeds
the current ACI acres, captured once before the loop starts. -/
def recipientIdx (rows : List DeltaRow) : List ℕ :=
  (List.range rows.length).filter fun i =>
    decide ((rows.getD i default).aci < (rows.getD i default).masc)

/-- The cascading top-up pass of label_area_deltas.main for one region group:
every recipient row, in index order, tops itself up from the fixed donor
categories. -/
def topUpRegion (rows : List DeltaRow) : List DeltaRow :=
  (recipientIdx rows).foldl topUpStep rows

/-- The fixed donor priority order stated by the specification: the
miscellaneous catch-all category first, then the pasture/forage category,
then the named staple crop category. -/
def donorPriority : List String := ["Other crops", "Pasture/forages", "Canola/rapeseed"]

/-- Surplus of the first row carrying a label: max(0, quantity - target),
zero when no row carries the label (the get_surplus helper). -/
def surplusAt (rows : List DeltaRow) (lbl : String) : ℚ :=
  match rows.findIdx? (fun r => r.label == lbl) with
  | none => 0
  | some i => qmax 0 ((rows.getD i default).aci - (rows.getD i default).masc)

/-- Modelled from the specification text of the cascading top-up: one draw
moves d = min(remaining need, donor surplus) acres from the donor row to
recipient i, skipping the donor when the draw would not be positive. -/
def specDraw (rows : List DeltaRow) (i : ℕ) (lbl : String) (t : ℚ) :
    List DeltaRow × ℚ :=
  let d := qmin t (surplusAt rows lbl)
  if 0 < d then
    match rows.findIdx? (fun r => r.label == lbl) with
    | none => (rows, t)
    | some j =>
      let donor := rows.getD j default
      (modifyAt (rows.set j { donor with aci := donor.aci - d }) i
        (fun r => { r with aci := r.aci + d }),
       t - d)
  else (rows, t)

/-- Modelled from the specification text: a recipient still in deficit draws
its remaining need from the donor categories by folding over the
fixed-priority donor list, each draw capped at the donor surplus. -/
def topUpStepSpec (rows : List DeltaRow) (i : ℕ) : List DeltaRow :=
  let r := rows.getD i default
  let need := r.masc - r.aci
  if need ≤ 0 then rows
  else (donorPriority.foldl (fun st lbl => specDraw st.1 i lbl st.2) (rows, need)).1

/-- Modelled from the specification text: the whole pass, every pair still
short of its target drawing in the fixed priority order. -/
def topUpRegionSpec (rows : List DeltaRow) : List DeltaRow :=
  (recipientIdx rows).foldl topUpStepSpec rows

/-! ### Unit conversion constants

scripts/aci_reallocate_pixels.py line 166 writes hectares as
acres * 0.404685642, while scripts/aci_yield_per_pixel.py line 48 and
scripts/aci_biomass_per_pixel.py line 51 write hectares as acres * 0.404686;
both divide hectares by 0.09 to obtain pixel counts. -/

/-- Acre-to-hectare factor used by distribute_back_to_municipalities. -/
def DIST_ACRE_TO_HA : ℚ := 404685642 / 1000000000

/-- Acre-to-hectare factor used by aci_yield_per_pixel and
aci_biomass_per_pixel. -/
def ACI_ACRE_TO_HA : ℚ := 404686 / 1000000

/-- Hectares covered by one 30 m raster cell, shared by all stages. -/
def PIXEL_HA : ℚ := 9 / 100

/-- Hectares derived from acres in aci_yield_per_pixel.main and
aci_biomass_per_pixel.main. -/
def aciStageHectares (acres : ℚ) : ℚ := acres * ACI_ACRE_TO_HA

/-- Pixel count derived from acres in aci_yield_per_pixel.main and
aci_biomass_per_pixel.main. -/
def aciStagePixels (acres : ℚ) : ℚ := aciStageHectares acres / PIXEL_HA

/-! ### Sub-Region Distributor:
scripts/aci_reallocate_pixels.py, distribute_back_to_municipalities

One row of the municipality-level ACI summary (aci_df after the RM merge). -/

structure AciRow where
  muni_no : Option ℤ
  muni_name : String
  code : Option ℤ
  pixel_count : ℚ
  hectares : ℚ
  acres : ℚ
  label : String
  rm : String
deriving DecidableEq, Repr

instance : Inhabited AciRow := ⟨⟨none, "", none, 0, 0, 0, "", ""⟩⟩

/-- One row of the reallocated RM-by-Label table handed back by
reallocate_acres (columns rm, Label, acres_aci). -/
structure ReallocRow where
  rm : String
  label : String
  acres_aci : ℚ
deriving DecidableEq, Repr

/-- The (rm, Label) key of a municipality row. -/
def keyOfAci (r : AciRow) : String × String := (r.rm, r.label)

/-- Template row for an RM-Label pair missing from the municipality table:
copy the identifying fields of the first row of that RM when one exists,
otherwise fall back to a placeholder named after the RM; numeric fields
start at zero. -/
def mkNewRow (rows : List AciRow) (t : ReallocRow) : AciRow :=
  match rows.find? (fun r => r.rm == t.rm) with
  | some tmpl =>
    { muni_no := tmpl.muni_no, muni_name := tmpl.muni_name, code := tmpl.code,
      pixel_count := 0, hectares := 0, acres := 0, label := t.label, rm := t.rm }
  | none =>
    { muni_no := none, muni_name := t.rm, code := none,
      pixel_count := 0, hectares := 0, acres := 0, label := t.label, rm := t.rm }

/-- Step 0 of distribute_back_to_municipalities: append one template row for
every reallocated (rm, Label) pair absent from the municipality table.  The
existing-keys set is computed once, before any row is appended. -/
def augmentRows (rows : List AciRow) (realloc : List ReallocRow) : List AciRow :=
  rows ++ (realloc.filter fun t =>
    decide (¬ (t.rm, t.label) ∈ rows.map keyOfAci)).map (mkNewRow rows)

/-- Original acres total of one (rm, Label) key (the groupby sum feeding the
acres_orig column). -/
def origTotal (aug : List AciRow) (k : String × String) : ℚ :=
  ((aug.filter fun r => decide (keyOfAci r = k)).map (fun r => r.acres)).sum

/-- Corrected acreage for one key, when the reallocated table carries it (the
left merge producing the acres_aci column; the reallocated table has unique
keys because it comes from a groupby). -/
def lookupRealloc (realloc : List ReallocRow) (k : String × String) : Option ℚ :=
  (realloc.find? fun t => decide ((t.rm, t.label) = k)).map (fun t => t.acres_aci)

/-- Step 4 of distribute_back_to_municipalities: the scale factor of one row:
corrected / original when the original total is positive and the corrected
total is present, 1 when the corrected total is absent, 0 otherwise. -/
def scaleFor (o : ℚ) (la : Option ℚ) : ℚ :=
  match la with
  | some a => if 0 < o then a / o else 0
  | none => 1

/-- Steps 4, 5 and 5b applied to one row: rescale the three area-like fields
multiplicatively, then, for a key with zero original total and positive
corrected total, overwrite acres with the full corrected value and rederive
hectares (factor 0.404685642) and pixel count (0.09 ha per pixel) from it. -/
def distributeRow (aug : List AciRow) (realloc : List ReallocRow) (r : AciRow) : AciRow :=
  let o := origTotal aug (keyOfAci r)
  let la := lookupRealloc realloc (keyOfAci r)
  let s := scaleFor o la
  let r1 := { r with pixel_count := r.pixel_count * s, hectares := r.hectares * s,
                     acres := r.acres * s }
  match la with
  | some a =>
    if o = 0 ∧ 0 < a then
      { r1 with acres := a, hectares := a * DIST_ACRE_TO_HA,
                pixel_count := a * DIST_ACRE_TO_HA / PIXEL_HA }
    else r1
  | none => r1

/-- distribute_back_to_municipalities: append template rows for missing keys,
then rescale every row of the augmented table.  The final column selection of
the source only drops the rm column, so rows are kept whole here. -/
def distribute (rows : List AciRow) (realloc : List ReallocRow) : List AciRow :=
  let aug := augmentRows rows realloc
  aug.map (distributeRow aug realloc)

/-! ### Pixel Materializer: scripts/raster_build.py, assign_within_muni

The two co-registered bands of one municipality window are flattened into
lists indexed by cell position (numpy argwhere enumerates candidate cells in
this row-major order).  The random generator is a parameter: a function that
selects a given number of cells from the candidate list, so theorems hold
for every draw satisfying the numpy choice contract (subset, no repetition,
exact size). -/

/-- The protected land-cover codes fixed in process_by_municipality. -/
def protectedCodes : List ℕ := [10, 20, 30, 34, 35, 50, 60, 80, 85, 110, 130, 200, 210, 220, 230]

/-- One row of the per-pixel biomass table restricted to one municipality:
the label, the required pixel count already rounded to an integer, and the
biomass value to burn into the value band. -/
structure PixelRecord where
  muni_name : String
  label : String
  required : ℤ
  biomass : ℚ
deriving DecidableEq, Repr

/-- One entry of the assigned_log audit list. -/
structure LogEntry where
  muni_name : String
  label : String
  code : ℕ
  required_pixels : ℤ
  existing_pixels : ℕ
  newly_assigned : ℕ
  total_assigned : ℕ
  biomass_value : ℚ
deriving DecidableEq, Repr

/-- The mutable state of one assign_within_muni call: the category band, the
value band, the assigned mask and the audit log. -/
structure RasterState where
  band1 : List ℕ
  band2 : List ℚ
  assigned : List Bool
  log : List LogEntry
deriving DecidableEq, Repr

/-- Rule 1 for one label: copy the biomass value into every cell whose
source category code already matches, and mark those cells assigned.  The
band of category codes is never written by this rule.  (The np.any guard of
the source only skips writes that would change nothing.) -/
def markMatching (code : ℕ) (bio : ℚ) (st : RasterState) : RasterState :=
  { st with
    band2 := List.zipWith (fun c v => if c = code then bio else v) st.band1 st.band2,
    assigned := List.zipWith (fun c a => if c = code then true else a) st.band1 st.assigned }

/-- Insert a label into an ascending list of labels (groupby sorts its keys). -/
def insertLabel (x : String) : List String → List String
  | [] => [x]
  | y :: ys => if x ≤ y then x :: y :: ys else y :: insertLabel x ys

/-- Ascending sort of the distinct labels of the municipality frame, the
iteration order of groupby("Label"). -/
def sortedLabels (recs : List PixelRecord) : List String :=
  ((recs.map fun r => r.label).dedup).foldr insertLabel []

/-- Rule 1 of assign_within_muni: per distinct label (in groupby order), look
the label up in the label-to-code table and preserve the already-matching
cells, burning the biomass value of the first record of the group. -/
def preserveMatching (ltc : String → Option ℕ) (recs : List PixelRecord)
    (st : RasterState) : RasterState :=
  (sortedLabels recs).foldl
    (fun s lbl =>
      match ltc lbl with
      | none => s
      | some code =>
        match recs.find? (fun r => r.label == lbl) with
        | none => s
        | some r0 => markMatching code r0.biomass s)
    st

/-- Candidate cells of the deficit fill: not yet assigned in this
municipality pass, not carrying a protected code, and inside the geometry
mask, enumerated in row-major order. -/
def candList (valid : List Bool) (st : RasterState) : List ℕ :=
  (List.range st.band1.length).filter fun p =>
    !(st.assigned.getD p false) &&
      !(decide ((st.band1.getD p 0) ∈ protectedCodes)) &&
      valid.getD p false

/-- Rule 2 of assign_within_muni for one record: when the label maps to a
code and the required pixel count is positive, count the matching cells over
the whole window, and when a positive deficit remains and the candidate pool
is not empty, draw min(deficit, pool size) cells, burn the code and the
biomass value into them, mark them assigned, and append the audit entry. -/
def processRecord (ltc : String → Option ℕ) (choose : List ℕ → ℕ → List ℕ)
    (valid : List Bool) (st : RasterState) (r : PixelRecord) : RasterState :=
  match ltc r.label with
  | none => st
  | some code =>
    if r.required ≤ 0 then st
    else
      let current := st.band1.countP fun c => decide (c = code)
      let deficit := r.required - (current : ℤ)
      if deficit ≤ 0 then st
      else
        let cands := candList valid st
        if cands.isEmpty then st
        else
          let k := min deficit.toNat cands.length
          let chosen := choose cands k
          { band1 := chosen.foldl (fun b p => b.set p code) st.band1,
            band2 := chosen.foldl (fun b p => b.set p r.biomass) st.band2,
            assigned := chosen.foldl (fun b p => b.set p true) st.assigned,
            log := st.log ++ [{ muni_name := r.muni_name, label := r.label, code := code,
                                required_pixels := r.required, existing_pixels := current,
                                newly_assigned := k, total_assigned := current + k,
                                biomass_value := r.biomass }] }

/-- assign_within_muni: start from a fresh assigned mask and empty log, run
rule 1 over the label groups, rule 2 over the records in frame order, and
finally clamp negative non-sentinel values of the value band to zero. -/
def assignWithinMuni (ltc : String → Option ℕ) (choose : List ℕ → ℕ → List ℕ)
    (valid : List Bool) (band1 : List ℕ) (band2 : List ℚ)
    (recs : List PixelRecord) : RasterState :=
  let st0 : RasterState := ⟨band1, band2, List.replicate band1.length false, []⟩
  let st1 := preserveMatching ltc recs st0
  let st2 := recs.foldl (processRecord ltc choose valid) st1
  { st2 with band2 := st2.band2.map fun v => if v < 0 ∧ ¬ v = -9999 then 0 else v }


/-! ## Theorems

Generic lemmas about the list helpers, followed by the lemmas of each
component and the theorems settling the claims. -/

theorem length_modifyAt (l : List α) (i : ℕ) (f : α → α) :
    (modifyAt l i f).length = l.length := by
  unfold modifyAt
  cases l[i]? <;> simp

theorem modifyAt_nil (i : ℕ) (f : α → α) : modifyAt ([] : List α) i f = [] := rfl

theorem modifyAt_cons_succ (x : α) (xs : List α) (i : ℕ) (f : α → α) :
    modifyAt (x :: xs) (i + 1) f = x :: modifyAt xs i f := by
  unfold modifyAt
  cases h : xs[i]? <;> simp [h]

theorem modifyAt_cons_zero (x : α) (xs : List α) (f : α → α) :
    modifyAt (x :: xs) 0 f = f x :: xs := by
  unfold modifyAt
  simp

theorem getD_set_ne (l : List α) (d : α) {i j : ℕ} (a : α) (h : i ≠ j) :
    (l.set i a).getD j d = l.getD j d := by
  induction l generalizing i j with
  | nil => simp
  | cons x xs ih =>
    cases i with
    | zero =>
      cases j with
      | zero => exact absurd rfl h
      | succ j => simp [List.getD]
    | succ i =>
      cases j with
      | zero => simp [List.getD]
      | succ j =>
        simp only [List.set, List.getD_cons_succ]
        exact ih (fun hij => h (by omega))

theorem getD_set_self (l : List α) (d : α) {i : ℕ} (a : α) (h : i < l.length) :
    (l.set i a).getD i d = a := by
  induction l generalizing i with
  | nil => simp at h
  | cons x xs ih =>
    cases i with
    | zero => simp [List.getD]
    | succ i =>
      simp only [List.set, List.getD_cons_succ]
      exact ih (by simpa using h)

theorem getD_modifyAt_ne (l : List α) (d : α) {i j : ℕ} (f : α → α) (h : i ≠ j) :
    (modifyAt l i f).getD j d = l.getD j d := by
  unfold modifyAt
  cases l[i]? with
  | none => rfl
  | some x => exact getD_set_ne l d _ h

theorem getD_modifyAt_self (l : List α) (d : α) {i : ℕ} (f : α → α) (h : i < l.length) :
    (modifyAt l i f).getD i d = f (l.getD i d) := by
  induction l generalizing i with
  | nil => simp at h
  | cons x xs ih =>
    cases i with
    | zero => rw [modifyAt_cons_zero]; simp [List.getD]
    | succ i =>
      rw [modifyAt_cons_succ]
      simp only [List.getD_cons_succ]
      exact ih (by simpa using h)

theorem getD_modifyAt_out (l : List α) (d : α) {i : ℕ} (f : α → α) (h : ¬ i < l.length) :
    (modifyAt l i f).getD i d = d := by
  induction l generalizing i with
  | nil => simp [modifyAt_nil, List.getD]
  | cons x xs ih =>
    cases i with
    | zero => simp at h
    | succ i =>
      rw [modifyAt_cons_succ]
      simp only [List.getD_cons_succ]
      exact ih (by simpa using h)

theorem getD_map_len (l : List α) (f : α → β) (d : α) {j : ℕ} (h : j < l.length) :
    (l.map f).getD j (f d) = f (l.getD j d) := by
  induction l generalizing j with
  | nil => simp at h
  | cons x xs ih =>
    cases j with
    | zero => simp [List.getD]
    | succ j =>
      simp only [List.map, List.getD_cons_succ]
      exact ih (by simpa using h)

theorem getD_append_left (l l₂ : List α) (d : α) {j : ℕ} (h : j < l.length) :
    ((l ++ l₂).getD j d) = l.getD j d := by
  induction l generalizing j with
  | nil => simp at h
  | cons x xs ih =>
    cases j with
    | zero => simp [List.getD]
    | succ j =>
      simp only [List.cons_append, List.getD_cons_succ]
      exact ih (by simpa using h)


theorem qmin_eq_min (a b : ℚ) : qmin a b = min a b := (min_def a b).symm

theorem qmax_eq_max (a b : ℚ) : qmax a b = max a b := (max_def a b).symm

theorem getD_map_fix (l : List α) (f : α → α) (d : α) (hd : f d = d) (j : ℕ) :
    (l.map f).getD j d = f (l.getD j d) := by
  by_cases h : j < l.length
  · calc (l.map f).getD j d = (l.map f).getD j (f d) := by rw [hd]
    _ = f (l.getD j d) := getD_map_len l f d h
  · have h1 : l.length ≤ j := by omega
    rw [List.getD_eq_default _ _ (by simpa using h1), List.getD_eq_default _ _ h1, hd]

theorem all_zero_of_nonneg_sum_zero (l : List ℚ) (h0 : ∀ x ∈ l, 0 ≤ x)
    (hs : l.sum = 0) : ∀ x ∈ l, x = 0 := by
  induction l with
  | nil => simp
  | cons a as ih =>
    simp only [List.sum_cons] at hs
    have ha : 0 ≤ a := h0 a (by simp)
    have has : 0 ≤ as.sum := List.sum_nonneg fun x hx => h0 x (by simp [hx])
    have ha0 : a = 0 := by linarith
    intro x hx
    rcases List.mem_cons.1 hx with h | h
    · exact h ▸ ha0
    · exact ih (fun y hy => h0 y (by simp [hy])) (by linarith) x h

/-! ### Lemmas about the Region Reconciler -/

theorem mergedRow_default : (default : MergedRow) = ⟨"", 0, 0, 0, 0, 0⟩ := rfl

/-- The zeroing map fixes the all-zero default row. -/
theorem zeroFun_default : zeroFun default = default := by
  rw [mergedRow_default]
  norm_num [zeroFun]

/-- The zeroing pass keeps the ground-truth column of every row. -/
theorem mascAt_zeroPass (rows : List MergedRow) (i : ℕ) :
    mascAt (zeroPass rows) i = mascAt rows i := by
  unfold mascAt zeroPass
  rw [getD_map_fix _ _ _ zeroFun_default]
  unfold zeroFun
  split <;> rfl

/-! ### Claims C1 and C2 -/

/-- Claim C1, counterexample: on the exact three-record region of the claim
(A: sensed 100, ground truth 0; B: sensed 0, ground truth 40; C: sensed 80,
ground truth 60) the reconciled sensed total is not 40 as the claim states. -/
theorem c1_counterexample :
    ¬ (((reallocateRegion
          [⟨"A", 100, 0, 0, 0, 100⟩, ⟨"B", 0, 0, 0, 40, -40⟩, ⟨"C", 80, 0, 0, 60, 20⟩]).map
            fun r => r.acres_aci).sum = 40) := by
  norm_num [reallocateRegion, zeroPass, zeroFun, missingIdx, surplusIdx, donorPool,
    transferPass, serveOne, sortDesc, insertDesc, addAci, modifyAt, qmin, aciAt, mascAt,
    List.range, List.range.loop]

/-- Claim C1, amended: on the three-record region of the claim the Region
Reconciler outputs sensed values A = 0, B = 20 and C = 60, so the sensed
total of the region is 80 (not 40), and the remaining unmet deficit of B is
exactly 20 acres. -/
theorem c1_amended :
    aciAt (reallocateRegion
      [⟨"A", 100, 0, 0, 0, 100⟩, ⟨"B", 0, 0, 0, 40, -40⟩, ⟨"C", 80, 0, 0, 60, 20⟩]) 0 = 0 ∧
    aciAt (reallocateRegion
      [⟨"A", 100, 0, 0, 0, 100⟩, ⟨"B", 0, 0, 0, 40, -40⟩, ⟨"C", 80, 0, 0, 60, 20⟩]) 1 = 20 ∧
    aciAt (reallocateRegion
      [⟨"A", 100, 0, 0, 0, 100⟩, ⟨"B", 0, 0, 0, 40, -40⟩, ⟨"C", 80, 0, 0, 60, 20⟩]) 2 = 60 ∧
    ((reallocateRegion
      [⟨"A", 100, 0, 0, 0, 100⟩, ⟨"B", 0, 0, 0, 40, -40⟩, ⟨"C", 80, 0, 0, 60, 20⟩]).map
        fun r => r.acres_aci).sum = 80 ∧
    mascAt (reallocateRegion
      [⟨"A", 100, 0, 0, 0, 100⟩, ⟨"B", 0, 0, 0, 40, -40⟩, ⟨"C", 80, 0, 0, 60, 20⟩]) 1 -
      aciAt (reallocateRegion
        [⟨"A", 100, 0, 0, 0, 100⟩, ⟨"B", 0, 0, 0, 40, -40⟩, ⟨"C", 80, 0, 0, 60, 20⟩]) 1
      = 20 := by
  norm_num [reallocateRegion, zeroPass, zeroFun, missingIdx, surplusIdx, donorPool,
    transferPass, serveOne, sortDesc, insertDesc, addAci, modifyAt, qmin, aciAt, mascAt,
    List.range, List.range.loop]

/-- Claim C2, counterexample: a one-record region with sensed acres 100 and
ground-truth total zero is not left unchanged by reallocate_acres — the
zeroing pass still runs and zeroes the record. -/
theorem c2_counterexample :
    ¬ (reallocateRegion [⟨"A", 100, 5, 2, 0, 100⟩] = [⟨"A", 100, 5, 2, 0, 100⟩]) := by
  norm_num [reallocateRegion, zeroPass, zeroFun, missingIdx, surplusIdx,
    List.range, List.range.loop, aciAt, mascAt]

/-- Claim C2, amended: for a region whose ground-truth acres are nonnegative
and sum to zero, reallocate_acres performs no surplus-to-deficit transfer,
but its zeroing pass still runs: every record with positive sensed acres has
its sensed acres, pixel count and hectares set to zero (its difference
column keeping its stale input value), and every other record is unchanged. -/
theorem c2_amended (rows : List MergedRow) (h0 : ∀ r ∈ rows, 0 ≤ r.acres_masc)
    (hs : (rows.map fun r => r.acres_masc).sum = 0) :
    reallocateRegion rows
      = rows.map fun r =>
          if 0 < r.acres_aci then
            { r with acres_aci := 0, pixel_count := 0, hectares := 0 }
          else r := by
  have hz : ∀ r ∈ rows, r.acres_masc = 0 := by
    intro r hr
    refine all_zero_of_nonneg_sum_zero _ ?_ hs _ (List.mem_map_of_mem _ hr)
    intro x hx
    obtain ⟨r', hr', rfl⟩ := List.mem_map.1 hx
    exact h0 r' hr'
  have hmiss : missingIdx (zeroPass rows) = [] := by
    unfold missingIdx
    rw [List.filter_eq_nil_iff]
    intro i hi
    rw [mascAt_zeroPass]
    have hlt : i < rows.length := by
      have := List.mem_range.1 hi
      simpa [zeroPass] using this
    have hmem : rows.getD i default ∈ rows := by
      rw [List.getD_eq_getElem _ _ hlt]
      exact List.getElem_mem _
    have : mascAt rows i = 0 := hz _ hmem
    simp [this]
  have hcond : ¬ ((¬ missingIdx (zeroPass rows) = []) ∧ (¬ surplusIdx (zeroPass rows) = [])) := by
    simp [hmiss]
  show (if (¬ missingIdx (zeroPass rows) = []) ∧ (¬ surplusIdx (zeroPass rows) = []) then
      (transferPass (zeroPass rows)).map fun r => { r with acres_diff := r.acres_aci - r.acres_masc }
    else zeroPass rows) = _
  rw [if_neg hcond]
  unfold zeroPass
  apply List.map_congr_left
  intro r hr
  unfold zeroFun
  simp [hz r hr]

/-- Claim C2, witness: the amended statement applied to the concrete
one-record region of the counterexample. -/
theorem c2_witness :
    reallocateRegion [⟨"A", 100, 5, 2, 0, 100⟩] = [⟨"A", 0, 0, 0, 0, 100⟩] := by
  rw [c2_amended [⟨"A", 100, 5, 2, 0, 100⟩]
    (by intro r hr; rw [List.mem_singleton] at hr; rw [hr])
    (by norm_num)]
  norm_num

/-! ### Lemmas about qmin, qmax and the cascading top-up pass -/

theorem qmin_le_l (a b : ℚ) : qmin a b ≤ a := by
  rw [qmin_eq_min]; exact min_le_left a b

theorem qmin_le_r (a b : ℚ) : qmin a b ≤ b := by
  rw [qmin_eq_min]; exact min_le_right a b

theorem qmin_nonneg {a b : ℚ} (ha : 0 ≤ a) (hb : 0 ≤ b) : 0 ≤ qmin a b := by
  rw [qmin_eq_min]; exact le_min ha hb

theorem qmax_zero_nonneg (x : ℚ) : 0 ≤ qmax 0 x := by
  rw [qmax_eq_max]; exact le_max_left 0 x

theorem surplusAt_nonneg (rows : List DeltaRow) (lbl : String) : 0 ≤ surplusAt rows lbl := by
  unfold surplusAt
  cases rows.findIdx? (fun r => r.label == lbl) with
  | none => exact le_refl 0
  | some j => exact qmax_zero_nonneg _

theorem takeFromLabel_nonpos (rows : List DeltaRow) (lbl : String) {t : ℚ} (h : t ≤ 0) :
    takeFromLabel rows lbl t = (0, rows) := by
  unfold takeFromLabel
  cases rows.findIdx? (fun r => r.label == lbl) with
  | none => rfl
  | some j => simp only [if_pos h]

theorem specDraw_zero (rows : List DeltaRow) (i : ℕ) (lbl : String) :
    specDraw rows i lbl 0 = (rows, 0) := by
  unfold specDraw
  have hd : ¬ (0 : ℚ) < qmin 0 (surplusAt rows lbl) := not_lt.2 (qmin_le_l _ _)
  simp only [hd, if_false]

/-- The take gift is between zero and the requested amount. -/
theorem takeFromLabel_fst_bounds (rows : List DeltaRow) (lbl : String) {t : ℚ} (ht : 0 ≤ t) :
    0 ≤ (takeFromLabel rows lbl t).1 ∧ (takeFromLabel rows lbl t).1 ≤ t := by
  unfold takeFromLabel
  cases rows.findIdx? (fun r => r.label == lbl) with
  | none => exact ⟨le_refl 0, ht⟩
  | some j =>
    by_cases h : t ≤ 0
    · simp only [if_pos h]; exact ⟨le_refl 0, ht⟩
    · simp only [if_neg h]
      have h1 : 0 ≤ qmin t (qmax 0 ((rows.getD j default).aci - (rows.getD j default).masc)) :=
        qmin_nonneg ht (qmax_zero_nonneg _)
      have h2 : qmin t (qmax 0 ((rows.getD j default).aci - (rows.getD j default).masc)) ≤ t :=
        qmin_le_l _ _
      split <;> exact ⟨h1, h2⟩

/-- One source donor stage equals one specification draw for a nonnegative
remaining need. -/
theorem drawStage_eq_specDraw (rows : List DeltaRow) (i : ℕ) (lbl : String) {t : ℚ}
    (ht : 0 ≤ t) : drawStage rows i lbl t = specDraw rows i lbl t := by
  rcases eq_or_lt_of_le ht with h0 | hpos
  · rw [← h0, specDraw_zero]
    unfold drawStage
    rw [takeFromLabel_nonpos rows lbl (le_refl 0)]
    norm_num
  · unfold drawStage specDraw takeFromLabel surplusAt
    cases hf : rows.findIdx? (fun r => r.label == lbl) with
    | none =>
      have hq : ¬ (0 : ℚ) < qmin t 0 := not_lt.2 (qmin_le_r t 0)
      simp only [hf, hq, if_false, lt_irrefl, sub_zero]
    | some j =>
      simp only [hf, if_neg (not_le.2 hpos)]
      by_cases hgp :
          0 < qmin t (qmax 0 ((rows.getD j default).aci - (rows.getD j default).masc))
      · simp only [hgp, if_true]
      · have hgz : qmin t (qmax 0 ((rows.getD j default).aci - (rows.getD j default).masc)) = 0 :=
          le_antisymm (not_lt.1 hgp) (qmin_nonneg (le_of_lt hpos) (qmax_zero_nonneg _))
        simp only [hgp, if_false, hgz, sub_zero]
        norm_num

/-- The guarded source stage (skipped once the need is exhausted) also equals
the specification draw, and keeps the remaining need nonnegative. -/
theorem guardedStage_eq (s : List DeltaRow × ℚ) (i : ℕ) (lbl : String) (h : 0 ≤ s.2) :
    (if 0 < s.2 then drawStage s.1 i lbl s.2 else s) = specDraw s.1 i lbl s.2 := by
  by_cases hp : 0 < s.2
  · rw [if_pos hp]; exact drawStage_eq_specDraw _ _ _ h
  · rw [if_neg hp]
    have h0 : s.2 = 0 := le_antisymm (not_lt.1 hp) h
    have : specDraw s.1 i lbl s.2 = (s.1, s.2) := by rw [h0]; exact specDraw_zero _ _ _
    rw [this]

theorem specDraw_snd_nonneg (s : List DeltaRow) (i : ℕ) (lbl : String) {t : ℚ} (ht : 0 ≤ t) :
    0 ≤ (specDraw s i lbl t).2 := by
  rw [← drawStage_eq_specDraw s i lbl ht]
  show 0 ≤ t - (takeFromLabel s lbl t).1
  have := (takeFromLabel_fst_bounds s lbl ht).2
  linarith

/-- The body of the recipient loop equals the specification fold over the
fixed donor priority list. -/
theorem topUpStep_eq_spec (rows : List DeltaRow) (i : ℕ) :
    topUpStep rows i = topUpStepSpec rows i := by
  unfold topUpStep topUpStepSpec
  by_cases hn : (rows.getD i default).masc - (rows.getD i default).aci ≤ 0
  · rw [if_pos hn, if_pos hn]
  · rw [if_neg hn, if_neg hn]
    have hn0 : 0 ≤ (rows.getD i default).masc - (rows.getD i default).aci := by
      have := not_le.1 hn; linarith
    simp only [donorPriority, List.foldl_cons, List.foldl_nil]
    rw [drawStage_eq_specDraw rows i "Other crops" hn0]
    have h1 : 0 ≤ (specDraw rows i "Other crops"
        ((rows.getD i default).masc - (rows.getD i default).aci)).2 :=
      specDraw_snd_nonneg _ _ _ hn0
    rw [guardedStage_eq (specDraw rows i "Other crops"
      ((rows.getD i default).masc - (rows.getD i default).aci)) i "Pasture/forages" h1]
    have h2 : 0 ≤ (specDraw (specDraw rows i "Other crops"
        ((rows.getD i default).masc - (rows.getD i default).aci)).1 i "Pasture/forages"
        (specDraw rows i "Other crops"
          ((rows.getD i default).masc - (rows.getD i default).aci)).2).2 :=
      specDraw_snd_nonneg _ _ _ h1
    rw [guardedStage_eq (specDraw (specDraw rows i "Other crops"
      ((rows.getD i default).masc - (rows.getD i default).aci)).1 i "Pasture/forages"
      (specDraw rows i "Other crops"
        ((rows.getD i default).masc - (rows.getD i default).aci)).2) i "Canola/rapeseed" h2]

/-- Setting past the end of a list changes nothing. -/
theorem set_of_length_le (l : List α) {i : ℕ} (a : α) (h : l.length ≤ i) :
    l.set i a = l := by
  induction l generalizing i with
  | nil => rfl
  | cons x xs ih =>
    cases i with
    | zero => simp at h
    | succ i => simp only [List.set]; rw [ih (by simpa using h)]

/-- Past-the-end modification changes nothing. -/
theorem modifyAt_of_length_le (l : List α) {i : ℕ} (f : α → α) (h : l.length ≤ i) :
    modifyAt l i f = l := by
  unfold modifyAt
  rw [List.getElem?_eq_none h]

/-- Case description of the take helper: either it changes nothing and gives
zero, or the donor label is found at row j, the gift is the positive amount
min(requested, max(0, aci - masc)), and row j is decremented by the gift. -/
theorem takeFromLabel_eq (rows : List DeltaRow) (lbl : String) (t : ℚ) :
    takeFromLabel rows lbl t = (0, rows) ∨
    ∃ j, rows.findIdx? (fun r => r.label == lbl) = some j ∧ j < rows.length ∧
      0 < qmin t (qmax 0 ((rows.getD j default).aci - (rows.getD j default).masc)) ∧
      takeFromLabel rows lbl t
        = (qmin t (qmax 0 ((rows.getD j default).aci - (rows.getD j default).masc)),
           rows.set j { rows.getD j default with
             aci := (rows.getD j default).aci
               - qmin t (qmax 0 ((rows.getD j default).aci - (rows.getD j default).masc)) }) := by
  unfold takeFromLabel
  cases hf : rows.findIdx? (fun r => r.label == lbl) with
  | none => exact Or.inl rfl
  | some j =>
    by_cases ht : t ≤ 0
    · left; simp only [if_pos ht]
    · by_cases hg : 0 < qmin t (qmax 0 ((rows.getD j default).aci - (rows.getD j default).masc))
      · right
        refine ⟨j, rfl, (List.findIdx?_eq_some_iff_findIdx_eq.1 hf).1, hg, ?_⟩
        simp only [if_neg ht, if_pos hg]
      · left
        have hz : qmin t (qmax 0 ((rows.getD j default).aci - (rows.getD j default).masc)) = 0 :=
          le_antisymm (not_lt.1 hg)
            (qmin_nonneg (le_of_lt (not_le.1 ht)) (qmax_zero_nonneg _))
        simp only [if_neg ht, if_neg hg, hz]
        norm_num

/-- The take helper keeps the masc and label columns of every row. -/
theorem takeFromLabel_masc_label (rows : List DeltaRow) (lbl : String) (t : ℚ) (k : ℕ) :
    (((takeFromLabel rows lbl t).2.getD k default).masc = (rows.getD k default).masc) ∧
    (((takeFromLabel rows lbl t).2.getD k default).label = (rows.getD k default).label) := by
  rcases takeFromLabel_eq rows lbl t with h | ⟨j, _, hj, _, h⟩ <;> rw [h]
  · exact ⟨rfl, rfl⟩
  · by_cases hk : k = j
    · subst hk
      rw [getD_set_self _ _ _ hj]
      exact ⟨rfl, rfl⟩
    · rw [getD_set_ne _ _ _ (fun hj2 => hk hj2.symm)]
      exact ⟨rfl, rfl⟩

/-- The take helper never pushes any row below min(quantity, target): a
donor gives only from max(0, quantity - target). -/
theorem takeFromLabel_aci_bound (rows : List DeltaRow) (lbl : String) (t : ℚ) (k : ℕ) :
    min ((rows.getD k default).aci) ((rows.getD k default).masc)
      ≤ ((takeFromLabel rows lbl t).2.getD k default).aci := by
  rcases takeFromLabel_eq rows lbl t with h | ⟨j, _, hj, hg, h⟩ <;> rw [h]
  · exact min_le_left _ _
  · by_cases hk : k = j
    · subst hk
      rw [getD_set_self _ _ _ hj]
      have hgle : qmin t (qmax 0 ((rows.getD k default).aci - (rows.getD k default).masc))
          ≤ qmax 0 ((rows.getD k default).aci - (rows.getD k default).masc) := qmin_le_r _ _
      rcases le_or_lt ((rows.getD k default).aci - (rows.getD k default).masc) 0 with hd | hd
      · exfalso
        have hmx : qmax 0 ((rows.getD k default).aci - (rows.getD k default).masc) = 0 := by
          rw [qmax_eq_max]; exact max_eq_left hd
        have : qmin t (qmax 0 ((rows.getD k default).aci - (rows.getD k default).masc)) ≤ 0 :=
          le_trans hgle (le_of_eq hmx)
        linarith
      · have hmx : qmax 0 ((rows.getD k default).aci - (rows.getD k default).masc)
            = (rows.getD k default).aci - (rows.getD k default).masc := by
          rw [qmax_eq_max]; exact max_eq_right (le_of_lt hd)
        have hgle2 : qmin t (qmax 0 ((rows.getD k default).aci - (rows.getD k default).masc))
            ≤ (rows.getD k default).aci - (rows.getD k default).masc :=
          le_trans hgle (le_of_eq hmx)
        have hmr := min_le_right ((rows.getD k default).aci) ((rows.getD k default).masc)
        simp only
        linarith
    · rw [getD_set_ne _ _ _ (fun hj2 => hk hj2.symm)]
      exact min_le_left _ _

/-- Adding a nonnegative gift to the recipient row never lowers any row and
keeps masc and label. -/
theorem modifyAt_incr_aci (rows : List DeltaRow) (i : ℕ) {g : ℚ} (hg : 0 ≤ g) (k : ℕ) :
    ((rows.getD k default).aci
      ≤ ((modifyAt rows i fun r => { r with aci := r.aci + g }).getD k default).aci) ∧
    (((modifyAt rows i fun r => { r with aci := r.aci + g }).getD k default).masc
      = (rows.getD k default).masc) ∧
    (((modifyAt rows i fun r => { r with aci := r.aci + g }).getD k default).label
      = (rows.getD k default).label) := by
  by_cases hk : k = i
  · subst hk
    by_cases hlen : k < rows.length
    · rw [getD_modifyAt_self _ _ _ hlen]
      exact ⟨by simp; linarith, rfl, rfl⟩
    · rw [modifyAt_of_length_le _ _ (by omega)]
      exact ⟨le_refl _, rfl, rfl⟩
  · rw [getD_modifyAt_ne _ _ _ (fun hi => hk hi.symm)]
    exact ⟨le_refl _, rfl, rfl⟩

/-- First component of one donor stage, written without the let. -/
theorem drawStage_fst (rows : List DeltaRow) (i : ℕ) (lbl : String) (t : ℚ) :
    (drawStage rows i lbl t).1
      = if 0 < (takeFromLabel rows lbl t).1 then
          modifyAt (takeFromLabel rows lbl t).2 i
            (fun r => { r with aci := r.aci + (takeFromLabel rows lbl t).1 })
        else (takeFromLabel rows lbl t).2 := rfl

/-- One donor stage of the top-up keeps masc, keeps the lower bound
min(quantity, target) on every row, and keeps the remaining need
nonnegative. -/
theorem drawStage_props (rows : List DeltaRow) (i : ℕ) (lbl : String) {t : ℚ} (ht : 0 ≤ t) :
    (∀ k, ((drawStage rows i lbl t).1.getD k default).masc = (rows.getD k default).masc) ∧
    (∀ k, min ((rows.getD k default).aci) ((rows.getD k default).masc)
        ≤ ((drawStage rows i lbl t).1.getD k default).aci) ∧
    0 ≤ (drawStage rows i lbl t).2 := by
  have hbound := takeFromLabel_fst_bounds rows lbl ht
  refine ⟨?_, ?_, ?_⟩
  · intro k
    rw [drawStage_fst]
    by_cases hp : 0 < (takeFromLabel rows lbl t).1
    · rw [if_pos hp]
      rw [(modifyAt_incr_aci (takeFromLabel rows lbl t).2 i (le_of_lt hp) k).2.1]
      exact (takeFromLabel_masc_label rows lbl t k).1
    · rw [if_neg hp]
      exact (takeFromLabel_masc_label rows lbl t k).1
  · intro k
    rw [drawStage_fst]
    by_cases hp : 0 < (takeFromLabel rows lbl t).1
    · rw [if_pos hp]
      calc min ((rows.getD k default).aci) ((rows.getD k default).masc)
          ≤ (((takeFromLabel rows lbl t).2).getD k default).aci :=
            takeFromLabel_aci_bound rows lbl t k
        _ ≤ _ := (modifyAt_incr_aci (takeFromLabel rows lbl t).2 i (le_of_lt hp) k).1
    · rw [if_neg hp]
      exact takeFromLabel_aci_bound rows lbl t k
  · show 0 ≤ t - (takeFromLabel rows lbl t).1
    linarith [hbound.2]

/-- The guarded donor stage has the same three properties. -/
theorem guardedStage_props (p : List DeltaRow × ℚ) (i : ℕ) (lbl : String) (hp : 0 ≤ p.2) :
    (∀ k, ((if 0 < p.2 then drawStage p.1 i lbl p.2 else p).1.getD k default).masc
      = (p.1.getD k default).masc) ∧
    (∀ k, min ((p.1.getD k default).aci) ((p.1.getD k default).masc)
      ≤ ((if 0 < p.2 then drawStage p.1 i lbl p.2 else p).1.getD k default).aci) ∧
    0 ≤ (if 0 < p.2 then drawStage p.1 i lbl p.2 else p).2 := by
  by_cases h : 0 < p.2
  · rw [if_pos h]; exact drawStage_props p.1 i lbl (le_of_lt h)
  · rw [if_neg h]; exact ⟨fun k => rfl, fun k => min_le_left _ _, hp⟩

/-- The recipient-loop body keeps masc and the min(quantity, target) lower
bound on every row. -/
theorem topUpStep_props (rows : List DeltaRow) (i : ℕ) :
    (∀ k, ((topUpStep rows i).getD k default).masc = (rows.getD k default).masc) ∧
    (∀ k, min ((rows.getD k default).aci) ((rows.getD k default).masc)
        ≤ ((topUpStep rows i).getD k default).aci) := by
  unfold topUpStep
  by_cases hn : (rows.getD i default).masc - (rows.getD i default).aci ≤ 0
  · rw [if_pos hn]
    exact ⟨fun k => rfl, fun k => min_le_left _ _⟩
  · rw [if_neg hn]
    have hn0 : 0 ≤ (rows.getD i default).masc - (rows.getD i default).aci := by
      have := not_le.1 hn; linarith
    simp only []
    have H1 := drawStage_props rows i "Other crops" hn0
    generalize hT1 : drawStage rows i "Other crops"
      ((rows.getD i default).masc - (rows.getD i default).aci) = T1
    rw [hT1] at H1
    have H2 := guardedStage_props T1 i "Pasture/forages" H1.2.2
    generalize hT2 : (if 0 < T1.2 then drawStage T1.1 i "Pasture/forages" T1.2 else T1) = T2
    rw [hT2] at H2
    have H3 := guardedStage_props T2 i "Canola/rapeseed" H2.2.2
    generalize hT3 : (if 0 < T2.2 then drawStage T2.1 i "Canola/rapeseed" T2.2 else T2) = T3
    rw [hT3] at H3
    constructor
    · intro k
      rw [H3.1 k, H2.1 k, H1.1 k]
    · intro k
      have le2 : min ((rows.getD k default).aci) ((rows.getD k default).masc)
          ≤ min ((T1.1.getD k default).aci) ((T1.1.getD k default).masc) := by
        refine le_min (H1.2.1 k) ?_
        rw [H1.1 k]
        exact min_le_right _ _
      have le3 : min ((T1.1.getD k default).aci) ((T1.1.getD k default).masc)
          ≤ min ((T2.1.getD k default).aci) ((T2.1.getD k default).masc) := by
        refine le_min (H2.2.1 k) ?_
        rw [H2.1 k]
        exact min_le_right _ _
      exact le_trans (le_trans le2 le3) (H3.2.1 k)

/-- The whole top-up pass keeps masc and the min(quantity, target) lower
bound on every row. -/
theorem topUpRegion_props (rows : List DeltaRow) :
    (∀ k, ((topUpRegion rows).getD k default).masc = (rows.getD k default).masc) ∧
    (∀ k, min ((rows.getD k default).aci) ((rows.getD k default).masc)
        ≤ ((topUpRegion rows).getD k default).aci) := by
  unfold topUpRegion
  have main : ∀ (l : List ℕ) (b : List DeltaRow),
      (∀ k, ((l.foldl topUpStep b).getD k default).masc = (b.getD k default).masc) ∧
      (∀ k, min ((b.getD k default).aci) ((b.getD k default).masc)
        ≤ ((l.foldl topUpStep b).getD k default).aci) := by
    intro l
    induction l with
    | nil => exact fun b => ⟨fun k => rfl, fun k => min_le_left _ _⟩
    | cons a l ih =>
      intro b
      simp only [List.foldl_cons]
      have hstep := topUpStep_props b a
      have hrest := ih (topUpStep b a)
      constructor
      · intro k
        rw [hrest.1 k, hstep.1 k]
      · intro k
        have hmin : min ((b.getD k default).aci) ((b.getD k default).masc)
            ≤ min (((topUpStep b a).getD k default).aci)
                (((topUpStep b a).getD k default).masc) := by
          refine le_min (hstep.2 k) ?_
          rw [hstep.1 k]
          exact min_le_right _ _
        exact le_trans hmin (hrest.2 k)
  exact main _ _

/-! ### Lemmas about the transfer pass of the Region Reconciler -/

theorem length_addAci (rows : List MergedRow) (j : ℕ) (q : ℚ) :
    (addAci rows j q).length = rows.length := length_modifyAt _ _ _

theorem mascAt_addAci (rows : List MergedRow) (j : ℕ) (q : ℚ) (k : ℕ) :
    mascAt (addAci rows j q) k = mascAt rows k := by
  unfold mascAt addAci
  by_cases hk : k = j
  · subst hk
    by_cases hlen : k < rows.length
    · rw [getD_modifyAt_self _ _ _ hlen]
    · rw [modifyAt_of_length_le _ _ (by omega)]
  · rw [getD_modifyAt_ne _ _ _ (fun h => hk h.symm)]

theorem aciAt_addAci_ne (rows : List MergedRow) {j k : ℕ} (q : ℚ) (h : k ≠ j) :
    aciAt (addAci rows j q) k = aciAt rows k := by
  unfold aciAt addAci
  rw [getD_modifyAt_ne _ _ _ (fun h2 => h h2.symm)]

/-- A nonnegative increment never lowers the sensed acres of any row. -/
theorem aciAt_addAci_le (rows : List MergedRow) (j : ℕ) {q : ℚ} (hq : 0 ≤ q) (k : ℕ) :
    aciAt rows k ≤ aciAt (addAci rows j q) k := by
  by_cases hk : k = j
  · subst hk
    by_cases hlen : k < rows.length
    · unfold aciAt addAci
      rw [getD_modifyAt_self _ _ _ hlen]
      simp only
      linarith
    · unfold aciAt addAci
      rw [modifyAt_of_length_le _ _ (by omega)]
  · rw [aciAt_addAci_ne rows q hk]

/-- A decrement lowers the sensed acres of any row by at most its size. -/
theorem aciAt_addAci_sub_le (rows : List MergedRow) (j : ℕ) {q : ℚ} (hq : 0 ≤ q) (k : ℕ) :
    aciAt rows k - q ≤ aciAt (addAci rows j (-q)) k := by
  by_cases hk : k = j
  · subst hk
    by_cases hlen : k < rows.length
    · unfold aciAt addAci
      rw [getD_modifyAt_self _ _ _ hlen]
      simp only
      linarith
    · unfold aciAt addAci
      rw [modifyAt_of_length_le _ _ (by omega)]
      linarith
  · rw [aciAt_addAci_ne rows _ hk]
    linarith

theorem serveOne_nil (rows : List MergedRow) (i : ℕ) (t : ℚ) :
    serveOne rows i t [] = (rows, []) := rfl

theorem serveOne_cons (rows : List MergedRow) (i : ℕ) (t : ℚ) (j : ℕ) (avail : ℚ)
    (rest : List (ℕ × ℚ)) :
    serveOne rows i t ((j, avail) :: rest)
      = if t ≤ 0 then (rows, (j, avail) :: rest)
        else if avail ≤ 0 then
          ((serveOne rows i t rest).1, (j, avail) :: (serveOne rows i t rest).2)
        else
          ((serveOne (addAci (addAci rows j (-(qmin avail t))) i (qmin avail t)) i
              (t - qmin avail t) rest).1,
           (j, avail - qmin avail t) ::
             (serveOne (addAci (addAci rows j (-(qmin avail t))) i (qmin avail t)) i
               (t - qmin avail t) rest).2) := rfl

/-- The inner donor loop: the donor indices are unchanged, table length and
ground truth are unchanged, rows outside the donor set never lose acres, and
every donor keeps a nonnegative remaining pool bounded by its current
surplus — so no donor is ever taken below its ground-truth target. -/
theorem serveOne_spec (i : ℕ) (donors : List (ℕ × ℚ)) :
    ∀ (rows : List MergedRow) (t : ℚ),
      (∀ p ∈ donors, 0 ≤ p.2 ∧ p.2 ≤ aciAt rows p.1 - mascAt rows p.1) →
      ((donors.map Prod.fst).Nodup) →
      ((serveOne rows i t donors).2.map Prod.fst = donors.map Prod.fst) ∧
      ((serveOne rows i t donors).1.length = rows.length) ∧
      (∀ k, mascAt (serveOne rows i t donors).1 k = mascAt rows k) ∧
      (∀ k, k ∉ donors.map Prod.fst → aciAt rows k ≤ aciAt (serveOne rows i t donors).1 k) ∧
      (∀ p ∈ (serveOne rows i t donors).2,
        0 ≤ p.2 ∧ p.2 ≤ aciAt (serveOne rows i t donors).1 p.1
          - mascAt (serveOne rows i t donors).1 p.1) := by
  induction donors with
  | nil =>
    intro rows t hdon hnd
    rw [serveOne_nil]
    exact ⟨rfl, rfl, fun k => rfl, fun k _ => le_refl _, fun p hp => absurd hp (by simp)⟩
  | cons d rest ih =>
    intro rows t hdon hnd
    obtain ⟨j, avail⟩ := d
    rw [serveOne_cons]
    by_cases ht : t ≤ 0
    · rw [if_pos ht]
      exact ⟨rfl, rfl, fun k => rfl, fun k _ => le_refl _, hdon⟩
    · rw [if_neg ht]
      have hndr : (rest.map Prod.fst).Nodup := (List.nodup_cons.1 hnd).2
      have hjrest : j ∉ rest.map Prod.fst := (List.nodup_cons.1 hnd).1
      by_cases ha : avail ≤ 0
      · rw [if_pos ha]
        have hdonr : ∀ p ∈ rest, 0 ≤ p.2 ∧ p.2 ≤ aciAt rows p.1 - mascAt rows p.1 :=
          fun p hp => hdon p (List.mem_cons_of_mem _ hp)
        obtain ⟨hfst, hlen, hmasc, hmono, hbound⟩ := ih rows t hdonr hndr
        refine ⟨by simp [hfst], hlen, hmasc, ?_, ?_⟩
        · intro k hk
          exact hmono k (fun hmem => hk (by simp [hmem]))
        · intro p hp
          rcases List.mem_cons.1 hp with hp | hp
          · subst hp
            have hd := hdon (j, avail) (List.mem_cons_self _ _)
            refine ⟨hd.1, ?_⟩
            have h1 : aciAt rows j ≤ aciAt (serveOne rows i t rest).1 j := hmono j hjrest
            have h2 := hmasc j
            simp only at hd h1 h2 ⊢
            rw [h2]
            linarith [hd.2]
          · exact hbound p hp
      · rw [if_neg ha]
        have htk0 : 0 ≤ qmin avail t :=
          qmin_nonneg (le_of_lt (not_le.1 ha)) (le_of_lt (not_le.1 ht))
        have htk_avail : qmin avail t ≤ avail := qmin_le_l _ _
        have hd := hdon (j, avail) (List.mem_cons_self _ _)
        -- the updated table after moving the gift
        have hmasc1 : ∀ k,
            mascAt (addAci (addAci rows j (-(qmin avail t))) i (qmin avail t)) k
              = mascAt rows k := by
          intro k
          rw [mascAt_addAci, mascAt_addAci]
        have hlen1 :
            (addAci (addAci rows j (-(qmin avail t))) i (qmin avail t)).length
              = rows.length := by
          rw [length_addAci, length_addAci]
        have hne1 : ∀ k, k ≠ j →
            aciAt rows k ≤ aciAt (addAci (addAci rows j (-(qmin avail t))) i (qmin avail t)) k := by
          intro k hk
          have e1 : aciAt (addAci rows j (-(qmin avail t))) k = aciAt rows k :=
            aciAt_addAci_ne rows _ hk
          have e2 := aciAt_addAci_le (addAci rows j (-(qmin avail t))) i htk0 k
          rw [e1] at e2
          exact e2
        have hj1 : aciAt rows j - qmin avail t
            ≤ aciAt (addAci (addAci rows j (-(qmin avail t))) i (qmin avail t)) j := by
          have e1 := aciAt_addAci_sub_le rows j htk0 j
          have e2 := aciAt_addAci_le (addAci rows j (-(qmin avail t))) i htk0 j
          linarith
        have hdonr : ∀ p ∈ rest, 0 ≤ p.2 ∧
            p.2 ≤ aciAt (addAci (addAci rows j (-(qmin avail t))) i (qmin avail t)) p.1
              - mascAt (addAci (addAci rows j (-(qmin avail t))) i (qmin avail t)) p.1 := by
          intro p hp
          have hpj : p.1 ≠ j := by
            intro h
            exact hjrest (h ▸ List.mem_map_of_mem Prod.fst hp)
          have hb := hdon p (List.mem_cons_of_mem _ hp)
          refine ⟨hb.1, ?_⟩
          have h1 := hne1 p.1 hpj
          rw [hmasc1 p.1]
          linarith [hb.2]
        obtain ⟨hfst, hlen, hmasc, hmono, hbound⟩ :=
          ih (addAci (addAci rows j (-(qmin avail t))) i (qmin avail t)) (t - qmin avail t)
            hdonr hndr
        refine ⟨by simp [hfst], by rw [hlen, hlen1], ?_, ?_, ?_⟩
        · intro k
          rw [hmasc k, hmasc1 k]
        · intro k hk
          have hkj : k ≠ j := fun h => hk (by simp [h])
          have hkr : k ∉ rest.map Prod.fst := fun hmem => hk (by simp [hmem])
          exact le_trans (hne1 k hkj) (hmono k hkr)
        · intro p hp
          rcases List.mem_cons.1 hp with hp | hp
          · subst hp
            refine ⟨by simp only; linarith, ?_⟩
            have h1 := hmono j hjrest
            have h2 := hmasc j
            simp only at h1 h2 ⊢
            rw [h2, hmasc1 j]
            linarith [hd.2, hj1]
          · exact hbound p hp

/-- The outer recipient loop of the transfer pass: folding the donor drain
over any recipient list keeps the donor indices, the ground truth, and the
donor pool bounds. -/
theorem foldServe_spec (g : ℕ → ℚ) (ms : List ℕ) :
    ∀ (rows : List MergedRow) (donors : List (ℕ × ℚ)),
      (∀ p ∈ donors, 0 ≤ p.2 ∧ p.2 ≤ aciAt rows p.1 - mascAt rows p.1) →
      ((donors.map Prod.fst).Nodup) →
      ((ms.foldl (fun st m => serveOne st.1 m (g m) st.2) (rows, donors)).2.map Prod.fst
        = donors.map Prod.fst) ∧
      (∀ k, mascAt (ms.foldl (fun st m => serveOne st.1 m (g m) st.2) (rows, donors)).1 k
        = mascAt rows k) ∧
      (∀ p ∈ (ms.foldl (fun st m => serveOne st.1 m (g m) st.2) (rows, donors)).2,
        0 ≤ p.2 ∧
          p.2 ≤ aciAt (ms.foldl (fun st m => serveOne st.1 m (g m) st.2) (rows, donors)).1 p.1
            - mascAt (ms.foldl (fun st m => serveOne st.1 m (g m) st.2) (rows, donors)).1 p.1) := by
  induction ms with
  | nil =>
    intro rows donors hdon hnd
    exact ⟨rfl, fun k => rfl, hdon⟩
  | cons m ms ih =>
    intro rows donors hdon hnd
    simp only [List.foldl_cons]
    obtain ⟨hfst, _, hmasc, _, hbound⟩ := serveOne_spec m donors rows (g m) hdon hnd
    have hnd2 : ((serveOne rows m (g m) donors).2.map Prod.fst).Nodup := by
      rw [hfst]; exact hnd
    obtain ⟨ihfst, ihmasc, ihbound⟩ :=
      ih (serveOne rows m (g m) donors).1 (serveOne rows m (g m) donors).2 hbound hnd2
    refine ⟨by rw [ihfst, hfst], ?_, ihbound⟩
    intro k
    rw [ihmasc k, hmasc k]

theorem insertDesc_perm (x : ℕ × ℚ) (l : List (ℕ × ℚ)) :
    List.Perm (insertDesc x l) (x :: l) := by
  induction l with
  | nil => exact List.Perm.refl _
  | cons y ys ih =>
    unfold insertDesc
    by_cases h : y.2 ≤ x.2
    · rw [if_pos h]
    · rw [if_neg h]
      exact (ih.cons y).trans (List.Perm.swap x y ys)

theorem sortDesc_perm (l : List (ℕ × ℚ)) : List.Perm (sortDesc l) l := by
  induction l with
  | nil => exact List.Perm.refl _
  | cons x xs ih =>
    exact (insertDesc_perm x (sortDesc xs)).trans (ih.cons x)

/-- Claim C3, confirmed: donor capping in both transfer passes.  First
conjunct (regional surplus-to-deficit transfer of reallocate_acres, under
the preprocessing invariant that the acres_diff column is the difference of
the two acreage columns): every donor row — sensed above ground truth after
the zeroing pass — ends the pass at or above its ground-truth target.
Second conjunct (cascading top-up of label_area_deltas): every donor row —
quantity above target before the pass — ends the pass at or above its
target.  In both passes a donor therefore never gives more than
max(0, quantity - target). -/
theorem c3_donor_capping :
    (∀ (rows : List MergedRow),
      (∀ r ∈ rows, r.acres_diff = r.acres_aci - r.acres_masc) →
      ∀ j, mascAt (zeroPass rows) j < aciAt (zeroPass rows) j →
        mascAt (zeroPass rows) j ≤ aciAt (reallocateRegion rows) j) ∧
    (∀ (rows : List DeltaRow) (j : ℕ),
      (rows.getD j default).masc < (rows.getD j default).aci →
        (rows.getD j default).masc ≤ ((topUpRegion rows).getD j default).aci) := by
  constructor
  · intro rows hdiff j hj
    have hjlen : j < (zeroPass rows).length := by
      by_contra h
      have e1 : aciAt (zeroPass rows) j = 0 := by
        unfold aciAt
        rw [List.getD_eq_default _ _ (by omega), mergedRow_default]
      have e2 : mascAt (zeroPass rows) j = 0 := by
        unfold mascAt
        rw [List.getD_eq_default _ _ (by omega), mergedRow_default]
      rw [e1, e2] at hj
      exact lt_irrefl 0 hj
    have hsurp : j ∈ surplusIdx (zeroPass rows) :=
      List.mem_filter.2 ⟨List.mem_range.2 hjlen, by simp [hj]⟩
    have hfst0 : List.Perm ((donorPool (zeroPass rows)).map Prod.fst)
        (surplusIdx (zeroPass rows)) := by
      unfold donorPool
      refine ((sortDesc_perm _).map Prod.fst).trans ?_
      rw [List.map_map]
      rw [show (Prod.fst ∘ fun j => (j, ((zeroPass rows).getD j default).acres_diff))
          = id from rfl, List.map_id]
    have hnd0 : ((donorPool (zeroPass rows)).map Prod.fst).Nodup :=
      hfst0.nodup_iff.2 ((List.nodup_range _).filter _)
    have hdon0 : ∀ p ∈ donorPool (zeroPass rows),
        0 ≤ p.2 ∧ p.2 ≤ aciAt (zeroPass rows) p.1 - mascAt (zeroPass rows) p.1 := by
      intro p hp
      have hp2 : p ∈ (surplusIdx (zeroPass rows)).map
          (fun j => (j, ((zeroPass rows).getD j default).acres_diff)) :=
        (sortDesc_perm _).subset hp
      obtain ⟨j', hj', hpj⟩ := List.mem_map.1 hp2
      obtain ⟨hjr, hjs⟩ := List.mem_filter.1 hj'
      have hjlt : j' < rows.length := by
        have := List.mem_range.1 hjr
        simpa [zeroPass] using this
      have hjs2 : mascAt (zeroPass rows) j' < aciAt (zeroPass rows) j' := by
        simpa using hjs
      have hrow : (zeroPass rows).getD j' default = zeroFun (rows.getD j' default) := by
        unfold zeroPass
        exact getD_map_fix _ _ _ zeroFun_default j'
      have hmem : rows.getD j' default ∈ rows := by
        rw [List.getD_eq_getElem _ _ hjlt]
        exact List.getElem_mem _
      have hdiffj : ((zeroPass rows).getD j' default).acres_diff
          = aciAt (zeroPass rows) j' - mascAt (zeroPass rows) j' := by
        unfold aciAt mascAt
        rw [hrow]
        unfold zeroFun
        by_cases hz : 0 < (rows.getD j' default).acres_aci
            ∧ (rows.getD j' default).acres_masc = 0
        · exfalso
          unfold aciAt mascAt at hjs2
          rw [hrow] at hjs2
          unfold zeroFun at hjs2
          rw [if_pos hz] at hjs2
          simp only at hjs2
          rw [hz.2] at hjs2
          exact lt_irrefl 0 hjs2
        · rw [if_neg hz]
          exact hdiff _ hmem
      rw [← hpj]
      simp only
      rw [hdiffj]
      constructor
      · linarith
      · exact le_refl _
    show mascAt (zeroPass rows) j
      ≤ aciAt (if (¬ missingIdx (zeroPass rows) = []) ∧ (¬ surplusIdx (zeroPass rows) = [])
          then (transferPass (zeroPass rows)).map
            (fun r => { r with acres_diff := r.acres_aci - r.acres_masc })
          else zeroPass rows) j
    by_cases hcond : (¬ missingIdx (zeroPass rows) = []) ∧ (¬ surplusIdx (zeroPass rows) = [])
    · rw [if_pos hcond]
      have hrecomp : aciAt ((transferPass (zeroPass rows)).map
          (fun r => { r with acres_diff := r.acres_aci - r.acres_masc })) j
          = aciAt (transferPass (zeroPass rows)) j := by
        unfold aciAt
        rw [getD_map_fix _ _ _ (by rw [mergedRow_default]; norm_num)]
      rw [hrecomp]
      obtain ⟨hfst, hmasc, hbound⟩ :=
        foldServe_spec (mascAt (zeroPass rows)) (missingIdx (zeroPass rows))
          (zeroPass rows) (donorPool (zeroPass rows)) hdon0 hnd0
      have hjmem : j ∈ ((missingIdx (zeroPass rows)).foldl
          (fun st m => serveOne st.1 m (mascAt (zeroPass rows) m) st.2)
          (zeroPass rows, donorPool (zeroPass rows))).2.map Prod.fst := by
        rw [hfst]
        exact hfst0.mem_iff.2 hsurp
      obtain ⟨p, hpmem, hpj⟩ := List.mem_map.1 hjmem
      have hb := hbound p hpmem
      have hm := hmasc p.1
      unfold transferPass
      rw [← hpj, ← hm]
      linarith [hb.1, hb.2]
    · rw [if_neg hcond]
      exact le_of_lt hj
  · intro rows j hj
    have h := (topUpRegion_props rows).2 j
    have : min ((rows.getD j default).aci) ((rows.getD j default).masc)
        = (rows.getD j default).masc := min_eq_right (le_of_lt hj)
    rw [this] at h
    exact h

/-- Claim C3, witness: both conjuncts of the donor-capping theorem applied
to concrete two-row regions with one donor and one recipient each. -/
theorem c3_witness :
    (mascAt (zeroPass [⟨"C", 80, 0, 0, 60, 20⟩, ⟨"B", 0, 0, 0, 40, -40⟩]) 0
      ≤ aciAt (reallocateRegion [⟨"C", 80, 0, 0, 60, 20⟩, ⟨"B", 0, 0, 0, 40, -40⟩]) 0) ∧
    (([⟨"Other crops", 50, 10⟩, ⟨"Wheat", 0, 30⟩] : List DeltaRow).getD 0 default).masc
      ≤ ((topUpRegion [⟨"Other crops", 50, 10⟩, ⟨"Wheat", 0, 30⟩]).getD 0 default).aci := by
  constructor
  · refine c3_donor_capping.1 [⟨"C", 80, 0, 0, 60, 20⟩, ⟨"B", 0, 0, 0, 40, -40⟩] ?_ 0 ?_
    · intro r hr
      rcases List.mem_cons.1 hr with rfl | hr2
      · norm_num
      · rcases List.mem_singleton.1 hr2 with rfl
        norm_num
    · norm_num [zeroPass, zeroFun, mascAt, aciAt]
  · refine c3_donor_capping.2 [⟨"Other crops", 50, 10⟩, ⟨"Wheat", 0, 30⟩] 0 ?_
    norm_num

/-- Claim C5, confirmed: the cascading top-up pass of label_area_deltas is
exactly the specification procedure — every (region, category) pair still in
deficit draws its remaining need by folding over the fixed donor list Other
crops, then Pasture/forages, then Canola/rapeseed, each draw equal to
min(remaining need, max(0, donor quantity - donor target)), hence never
negative and capped at the donor surplus at the moment of the draw. -/
theorem c5_fixed_order (rows : List DeltaRow) : topUpRegion rows = topUpRegionSpec rows := by
  unfold topUpRegion topUpRegionSpec
  have : ∀ (l : List ℕ) (b : List DeltaRow), l.foldl topUpStep b = l.foldl topUpStepSpec b := by
    intro l
    induction l with
    | nil => intro b; rfl
    | cons a l ih =>
      intro b
      simp only [List.foldl_cons]
      rw [topUpStep_eq_spec, ih]
  exact this _ _



/-! ### Lemmas about the Sub-Region Distributor -/

theorem getD_map_lt (l : List α) (f : α → β) (d : β) (e : α) {j : ℕ} (h : j < l.length) :
    (l.map f).getD j d = f (l.getD j e) := by
  induction l generalizing j with
  | nil => simp at h
  | cons x xs ih =>
    cases j with
    | zero => simp [List.getD]
    | succ j =>
      simp only [List.map, List.getD_cons_succ]
      exact ih (by simpa using h)

/-- Rescaling a row never changes its (rm, Label) key. -/
theorem keyOf_distributeRow (aug : List AciRow) (realloc : List ReallocRow) (r : AciRow) :
    keyOfAci (distributeRow aug realloc r) = keyOfAci r := by
  unfold distributeRow keyOfAci
  cases lookupRealloc realloc (r.rm, r.label) with
  | none => rfl
  | some a =>
    simp only []
    split <;> rfl

/-- The key of a synthesized template row is the reallocated key. -/
theorem keyOf_mkNewRow (rows : List AciRow) (t : ReallocRow) :
    keyOfAci (mkNewRow rows t) = (t.rm, t.label) := by
  unfold mkNewRow keyOfAci
  cases rows.find? (fun r => r.rm == t.rm) <;> rfl

/-- A synthesized template row starts with zero in all three area fields. -/
theorem mkNewRow_zero (rows : List AciRow) (t : ReallocRow) :
    (mkNewRow rows t).acres = 0 ∧ (mkNewRow rows t).hectares = 0 ∧
      (mkNewRow rows t).pixel_count = 0 := by
  unfold mkNewRow
  cases rows.find? (fun r => r.rm == t.rm) <;> exact ⟨rfl, rfl, rfl⟩

/-- Claim C9, confirmed: for a row whose (rm, Label) key has positive
original total equal to the corrected total, distribute_back_to_municipalities
is the identity on that row: the scale factor is exactly 1 and pixel count,
hectares and acres are unchanged. -/
theorem c9_scale_identity (rows : List AciRow) (realloc : List ReallocRow) (i : ℕ)
    (hi : i < rows.length)
    (ho : 0 < origTotal (augmentRows rows realloc) (keyOfAci (rows.getD i default)))
    (hl : lookupRealloc realloc (keyOfAci (rows.getD i default))
        = some (origTotal (augmentRows rows realloc) (keyOfAci (rows.getD i default)))) :
    (distribute rows realloc).getD i default = rows.getD i default := by
  have hiaug : i < (augmentRows rows realloc).length := by
    unfold augmentRows
    rw [List.length_append]
    omega
  show ((augmentRows rows realloc).map
      (distributeRow (augmentRows rows realloc) realloc)).getD i default
    = rows.getD i default
  rw [getD_map_lt _ _ _ default hiaug]
  have haug : (augmentRows rows realloc).getD i default = rows.getD i default := by
    unfold augmentRows
    exact getD_append_left _ _ _ hi
  rw [haug]
  have hsc : scaleFor
      (origTotal (augmentRows rows realloc) (keyOfAci (rows.getD i default)))
      (some (origTotal (augmentRows rows realloc) (keyOfAci (rows.getD i default)))) = 1 := by
    show (if 0 < origTotal (augmentRows rows realloc) (keyOfAci (rows.getD i default)) then
        origTotal (augmentRows rows realloc) (keyOfAci (rows.getD i default))
          / origTotal (augmentRows rows realloc) (keyOfAci (rows.getD i default))
      else 0) = 1
    rw [if_pos ho]
    exact div_self (ne_of_gt ho)
  have hne : ¬ (origTotal (augmentRows rows realloc) (keyOfAci (rows.getD i default)) = 0 ∧
      0 < origTotal (augmentRows rows realloc) (keyOfAci (rows.getD i default))) := by
    rintro ⟨h1, h2⟩
    rw [h1] at h2
    exact lt_irrefl 0 h2
  unfold distributeRow
  simp only [hl, hsc]
  rw [if_neg hne]
  simp only [mul_one]

/-- Claim C9, witness: a two-municipality region whose original total 300
equals the corrected total is returned unchanged at row 0. -/
theorem c9_witness :
    (distribute
        [⟨some 1, "M1", some 7, 10, 4, 100, "L", "R"⟩,
         ⟨some 2, "M2", some 7, 20, 8, 200, "L", "R"⟩]
        [⟨"R", "L", 300⟩]).getD 0 default
      = ⟨some 1, "M1", some 7, 10, 4, 100, "L", "R"⟩ := by
  have h := c9_scale_identity
    [⟨some 1, "M1", some 7, 10, 4, 100, "L", "R"⟩,
     ⟨some 2, "M2", some 7, 20, 8, 200, "L", "R"⟩]
    [⟨"R", "L", 300⟩] 0 (by norm_num)
    (by norm_num [origTotal, augmentRows, keyOfAci, lookupRealloc, mkNewRow])
    (by norm_num [origTotal, augmentRows, keyOfAci, lookupRealloc, mkNewRow])
  rw [h]
  norm_num

/-- Claim C7: the acre-to-hectare constants of the two stages differ.  The
sub-region distributor (aci_reallocate_pixels line 166) converts with
0.404685642 while the yield and biomass stages (aci_yield_per_pixel line 48,
aci_biomass_per_pixel line 51) convert with 0.404686, so one acre of a newly
synthesized category receives different hectares in the two stages. -/
theorem c7_constants :
    ((distribute [] [⟨"R", "L", 1⟩]).getD 0 default).acres = 1 ∧
    ((distribute [] [⟨"R", "L", 1⟩]).getD 0 default).hectares
      ≠ aciStageHectares (((distribute [] [⟨"R", "L", 1⟩]).getD 0 default).acres) ∧
    DIST_ACRE_TO_HA ≠ ACI_ACRE_TO_HA := by
  have hrow : (distribute [] [⟨"R", "L", 1⟩]).getD 0 default
      = { muni_no := none, muni_name := "R", code := none,
          pixel_count := 1 * DIST_ACRE_TO_HA / PIXEL_HA,
          hectares := 1 * DIST_ACRE_TO_HA, acres := 1, label := "L", rm := "R" } := by
    norm_num [distribute, augmentRows, distributeRow, mkNewRow, keyOfAci, origTotal,
      lookupRealloc, scaleFor]
  rw [hrow]
  norm_num [aciStageHectares, DIST_ACRE_TO_HA, ACI_ACRE_TO_HA]

/-- Claim C6, counterexample: when zero-acre rows for the (region, category)
pair already exist, distribute_back_to_municipalities writes the full
corrected total into every one of them, so the per-category regional sum is
twice the corrected total instead of equal to it (and more than one record
is written). -/
theorem c6_counterexample :
    ¬ ((((distribute
        [⟨some 1, "M1", some 7, 0, 0, 0, "L", "R"⟩,
         ⟨some 2, "M2", some 7, 0, 0, 0, "L", "R"⟩]
        [⟨"R", "L", 10⟩]).filter fun r => decide (keyOfAci r = ("R", "L"))).map
          fun r => r.acres).sum = 10) := by
  norm_num [distribute, augmentRows, distributeRow, mkNewRow, keyOfAci, origTotal,
    lookupRealloc, scaleFor]

/-- On a list with pairwise-distinct keys, the filter by one key returns
exactly the entry found by find?. -/
theorem filter_key_unique (l : List ReallocRow) (k : String × String)
    (hnd : (l.map fun t => (t.rm, t.label)).Nodup) (t0 : ReallocRow)
    (h : l.find? (fun t => decide ((t.rm, t.label) = k)) = some t0) :
    l.filter (fun t => decide ((t.rm, t.label) = k)) = [t0] := by
  induction l with
  | nil => simp at h
  | cons x xs ih =>
    rw [List.find?_cons] at h
    by_cases hx : (x.rm, x.label) = k
    · have hd : decide ((x.rm, x.label) = k) = true := decide_eq_true hx
      rw [hd] at h
      injection h with h
      subst h
      rw [List.filter_cons, if_pos hd]
      have hempty : xs.filter (fun t => decide ((t.rm, t.label) = k)) = [] := by
        rw [List.filter_eq_nil_iff]
        intro t ht
        have hmem : (t.rm, t.label) ∈ xs.map fun t => (t.rm, t.label) :=
          List.mem_map_of_mem _ ht
        have hnot : (x.rm, x.label) ∉ xs.map fun t => (t.rm, t.label) :=
          (List.nodup_cons.1 hnd).1
        simp only [decide_eq_true_eq]
        intro hk
        exact hnot (by rw [hx, ← hk]; exact hmem)
      rw [hempty]
    · have hd : decide ((x.rm, x.label) = k) = false := decide_eq_false hx
      rw [hd] at h
      rw [List.filter_cons, if_neg (by simp [hd])]
      exact ih (List.nodup_cons.1 hnd).2 h

/-- Claim C6, amended: for a (region, category) key absent from the
municipality table whose corrected total a is positive, the Distributor
synthesizes exactly one record for the key — templated on the first row of
that region — and assigns it the entire corrected total, with hectares
derived as acres times 0.404685642 and pixel count as hectares / 0.09; the
per-category regional sum then equals the corrected total.  (When zero-acre
rows for the key already exist, each of them instead receives the full
total, as the counterexample shows.) -/
theorem c6_amended (rows : List AciRow) (realloc : List ReallocRow) (R L : String) (a : ℚ)
    (habs : ∀ r ∈ rows, keyOfAci r ≠ (R, L))
    (hnd : (realloc.map fun t => (t.rm, t.label)).Nodup)
    (hl : lookupRealloc realloc (R, L) = some a)
    (ha : 0 < a) :
    ((distribute rows realloc).filter fun r => decide (keyOfAci r = (R, L)))
      = [{ mkNewRow rows ⟨R, L, a⟩ with
            acres := a, hectares := a * DIST_ACRE_TO_HA,
            pixel_count := a * DIST_ACRE_TO_HA / PIXEL_HA }] ∧
    (((distribute rows realloc).filter fun r => decide (keyOfAci r = (R, L))).map
        (fun r => r.acres)).sum = a := by
  obtain ⟨t0, hf, hacres⟩ := Option.map_eq_some'.1 hl
  have ht0k : (t0.rm, t0.label) = (R, L) := by
    have := List.find?_some hf
    simpa using this
  have ht0 : t0 = ⟨R, L, a⟩ := by
    obtain ⟨rm0, lb0, ac0⟩ := t0
    simp only [Prod.mk.injEq] at ht0k
    simp only at hacres
    rw [ht0k.1, ht0k.2, hacres]
  have hknotin : (R, L) ∉ rows.map keyOfAci := by
    intro hmem
    obtain ⟨r, hr, hrk⟩ := List.mem_map.1 hmem
    exact habs r hr hrk
  -- the augmented table filtered to the key is exactly the one template row
  have hfilt : (augmentRows rows realloc).filter (fun r => decide (keyOfAci r = (R, L)))
      = [mkNewRow rows ⟨R, L, a⟩] := by
    unfold augmentRows
    rw [List.filter_append]
    have h1 : rows.filter (fun r => decide (keyOfAci r = (R, L))) = [] := by
      rw [List.filter_eq_nil_iff]
      intro r hr
      simp only [decide_eq_true_eq]
      exact habs r hr
    rw [h1, List.nil_append, List.filter_map]
    have h2 : ((fun r => decide (keyOfAci r = (R, L))) ∘ mkNewRow rows)
        = fun t : ReallocRow => decide ((t.rm, t.label) = (R, L)) := by
      funext t
      simp only [Function.comp]
      rw [keyOf_mkNewRow]
    rw [h2, List.filter_filter]
    have h3 : (realloc.filter fun t =>
        (decide ((t.rm, t.label) = (R, L)) &&
          decide (¬(t.rm, t.label) ∈ rows.map keyOfAci)))
        = realloc.filter fun t => decide ((t.rm, t.label) = (R, L)) := by
      apply List.filter_congr
      intro t _
      by_cases hk : (t.rm, t.label) = (R, L)
      · rw [decide_eq_true hk]
        rw [decide_eq_true (by rw [hk]; exact hknotin)]
        rfl
      · rw [decide_eq_false hk]
        rfl
    rw [h3, filter_key_unique realloc (R, L) hnd t0 hf, ht0]
    rfl
  have horig : origTotal (augmentRows rows realloc) (R, L) = 0 := by
    unfold origTotal
    rw [hfilt]
    simp [(mkNewRow_zero rows ⟨R, L, a⟩).1]
  have hnew : distributeRow (augmentRows rows realloc) realloc (mkNewRow rows ⟨R, L, a⟩)
      = { mkNewRow rows ⟨R, L, a⟩ with
          acres := a, hectares := a * DIST_ACRE_TO_HA,
          pixel_count := a * DIST_ACRE_TO_HA / PIXEL_HA } := by
    unfold distributeRow
    simp only [keyOf_mkNewRow, horig, hl]
    rw [if_pos ⟨trivial, ha⟩]
  have hmain : ((distribute rows realloc).filter fun r => decide (keyOfAci r = (R, L)))
      = [{ mkNewRow rows ⟨R, L, a⟩ with
            acres := a, hectares := a * DIST_ACRE_TO_HA,
            pixel_count := a * DIST_ACRE_TO_HA / PIXEL_HA }] := by
    show ((augmentRows rows realloc).map
        (distributeRow (augmentRows rows realloc) realloc)).filter
          (fun r => decide (keyOfAci r = (R, L)))
      = _
    rw [List.filter_map]
    have hc : ((fun r => decide (keyOfAci r = (R, L)))
        ∘ distributeRow (augmentRows rows realloc) realloc)
        = fun r => decide (keyOfAci r = (R, L)) := by
      funext r
      simp only [Function.comp]
      rw [keyOf_distributeRow]
    rw [hc, hfilt]
    simp only [List.map_cons, List.map_nil]
    rw [hnew]
  refine ⟨hmain, ?_⟩
  rw [hmain]
  simp

/-- Claim C6, witness: the amended statement on a region with one existing
row for another category and a brand-new category with corrected total 10:
one row is synthesized from the first member M1 and carries all 10 acres. -/
theorem c6_witness :
    ((distribute [⟨some 1, "M1", some 7, 5, 2, 50, "K", "R"⟩] [⟨"R", "L", 10⟩]).filter
        fun r => decide (keyOfAci r = ("R", "L")))
      = [⟨some 1, "M1", some 7, 10 * DIST_ACRE_TO_HA / PIXEL_HA, 10 * DIST_ACRE_TO_HA, 10,
          "L", "R"⟩] ∧
    (((distribute [⟨some 1, "M1", some 7, 5, 2, 50, "K", "R"⟩] [⟨"R", "L", 10⟩]).filter
        fun r => decide (keyOfAci r = ("R", "L"))).map (fun r => r.acres)).sum = 10 := by
  have h := c6_amended [⟨some 1, "M1", some 7, 5, 2, 50, "K", "R"⟩] [⟨"R", "L", 10⟩]
    "R" "L" 10
    (by intro r hr; rcases List.mem_singleton.1 hr with rfl; simp [keyOfAci])
    (by simp)
    (by norm_num [lookupRealloc])
    (by norm_num)
  refine ⟨?_, h.2⟩
  rw [h.1]
  norm_num [mkNewRow]


/-! ### Lemmas about the Pixel Materializer -/

theorem foldl_set_getD_not_mem (c d : α) (ps : List ℕ) (b : List α) (p : ℕ) (hp : p ∉ ps) :
    ((ps.foldl (fun acc q => acc.set q c) b).getD p d) = b.getD p d := by
  induction ps generalizing b with
  | nil => rfl
  | cons q qs ih =>
    simp only [List.foldl_cons]
    rw [ih (b.set q c) (fun h => hp (List.mem_cons_of_mem _ h))]
    exact getD_set_ne b d c (fun h => hp (h ▸ List.mem_cons_self _ _))

theorem foldl_set_getD_mem (c d : α) (ps : List ℕ) (b : List α) (p : ℕ) (hp : p ∈ ps)
    (hlen : p < b.length) :
    ((ps.foldl (fun acc q => acc.set q c) b).getD p d) = c := by
  induction ps generalizing b with
  | nil => simp at hp
  | cons q qs ih =>
    simp only [List.foldl_cons]
    by_cases hq : p ∈ qs
    · exact ih (b.set q c) hq (by simpa using hlen)
    · have hpq : p = q := by
        rcases List.mem_cons.1 hp with h | h
        · exact h
        · exact absurd h hq
      subst hpq
      rw [foldl_set_getD_not_mem c d qs _ p hq]
      exact getD_set_self b d c hlen

/-- Rule 1 never writes the category band. -/
theorem band1_preserveMatching (ltc : String → Option ℕ) (recs : List PixelRecord)
    (st : RasterState) : (preserveMatching ltc recs st).band1 = st.band1 := by
  unfold preserveMatching
  generalize sortedLabels recs = labs
  induction labs generalizing st with
  | nil => rfl
  | cons lbl labs ih =>
    simp only [List.foldl_cons]
    rw [ih]
    cases ltc lbl with
    | none => rfl
    | some code =>
      cases recs.find? (fun r => r.label == lbl) with
      | none => rfl
      | some r0 => rfl

/-- Membership in the candidate pool, unfolded. -/
theorem mem_candList (valid : List Bool) (st : RasterState) (p : ℕ) :
    p ∈ candList valid st ↔
      (p < st.band1.length ∧ st.assigned.getD p false = false ∧
        st.band1.getD p 0 ∉ protectedCodes ∧ valid.getD p false = true) := by
  unfold candList
  rw [List.mem_filter, List.mem_range]
  constructor
  · rintro ⟨h1, h2⟩
    simp only [Bool.and_eq_true, Bool.not_eq_true', decide_eq_false_iff_not] at h2
    exact ⟨h1, h2.1.1, h2.1.2, h2.2⟩
  · rintro ⟨h1, h2, h3, h4⟩
    refine ⟨h1, ?_⟩
    simp only [Bool.and_eq_true, Bool.not_eq_true', decide_eq_false_iff_not]
    exact ⟨⟨h2, h3⟩, h4⟩

/-- Case description of rule 2 for one record: either the state is returned
untouched, or the label resolves to a code and the category band is written
at exactly the drawn candidate cells. -/
theorem processRecord_band1_cases (ltc : String → Option ℕ)
    (choose : List ℕ → ℕ → List ℕ) (valid : List Bool) (st : RasterState)
    (r : PixelRecord) :
    (processRecord ltc choose valid st r).band1 = st.band1 ∨
    ∃ code, ltc r.label = some code ∧
      (processRecord ltc choose valid st r).band1
        = (choose (candList valid st)
            (min (r.required - (st.band1.countP fun c => decide (c = code) : ℤ)).toNat
              (candList valid st).length)).foldl (fun b q => b.set q code) st.band1 := by
  unfold processRecord
  cases hltc : ltc r.label with
  | none => exact Or.inl rfl
  | some code =>
    simp only []
    by_cases h1 : r.required ≤ 0
    · rw [if_pos h1]; exact Or.inl rfl
    · rw [if_neg h1]
      by_cases h2 : r.required - (st.band1.countP fun c => decide (c = code) : ℤ) ≤ 0
      · rw [if_pos h2]; exact Or.inl rfl
      · rw [if_neg h2]
        by_cases h3 : (candList valid st).isEmpty = true
        · rw [if_pos h3]; exact Or.inl rfl
        · rw [if_neg h3]; exact Or.inr ⟨code, rfl, rfl⟩

/-- Claim C4, confirmed: protected pixels are never reassigned.  For every
label-to-code table, every draw function that only picks candidates from the
pool it is given, every geometry mask, every input pair of bands and every
record list, a cell whose source category code is in the protected set
carries the same code in the output category band. -/
theorem c4_protected (ltc : String → Option ℕ) (choose : List ℕ → ℕ → List ℕ)
    (valid : List Bool) (band1 : List ℕ) (band2 : List ℚ) (recs : List PixelRecord)
    (hsub : ∀ l n, ∀ q ∈ choose l n, q ∈ l)
    (p : ℕ) (hp : band1.getD p 0 ∈ protectedCodes) :
    (assignWithinMuni ltc choose valid band1 band2 recs).band1.getD p 0
      = band1.getD p 0 := by
  have main : ∀ (rs : List PixelRecord) (st : RasterState),
      st.band1.getD p 0 = band1.getD p 0 →
      ((rs.foldl (processRecord ltc choose valid) st).band1.getD p 0 = band1.getD p 0) := by
    intro rs
    induction rs with
    | nil => intro st h; exact h
    | cons r rs ih =>
      intro st h
      simp only [List.foldl_cons]
      refine ih _ ?_
      rcases processRecord_band1_cases ltc choose valid st r with hcase | ⟨code, _, hcase⟩
      · rw [hcase]; exact h
      · rw [hcase]
        have hnotin : p ∉ choose (candList valid st)
            (min (r.required - (st.band1.countP fun c => decide (c = code) : ℤ)).toNat
              (candList valid st).length) := by
          intro hmem
          have hpc := hsub _ _ _ hmem
          have hprot := ((mem_candList valid st p).1 hpc).2.2.1
          rw [h] at hprot
          exact hprot hp
        rw [foldl_set_getD_not_mem _ _ _ _ _ hnotin]
        exact h
  show ((recs.foldl (processRecord ltc choose valid)
      (preserveMatching ltc recs
        ⟨band1, band2, List.replicate band1.length false, []⟩)).band1).getD p 0
    = band1.getD p 0
  refine main recs _ ?_
  rw [band1_preserveMatching]

/-- Claim C4, witness: a two-cell window whose first cell carries protected
code 10 keeps it although the record demands five more pixels of code 1. -/
theorem c4_witness :
    (assignWithinMuni (fun lbl => if lbl = "Crop" then some 1 else none)
        (fun l n => l.take n) [true, true] [10, 3] [-9999, -9999]
        [⟨"M", "Crop", 5, 1⟩]).band1.getD 0 0 = 10 := by
  have h := c4_protected (fun lbl => if lbl = "Crop" then some 1 else none)
    (fun l n => l.take n) [true, true] [10, 3] [-9999, -9999]
    [⟨"M", "Crop", 5, 1⟩]
    (fun l n q hq => List.take_subset n l hq)
    0 (by norm_num [protectedCodes])
  rw [h]
  rfl


/-- Rule 2 for one record with a positive deficit: the empty candidate pool
is skipped wholesale (no log entry), and a nonempty pool yields exactly the
update record with min(deficit, pool size) newly assigned cells. -/
theorem processRecord_run (ltc : String → Option ℕ) (choose : List ℕ → ℕ → List ℕ)
    (valid : List Bool) (st : RasterState) (r : PixelRecord) (code : ℕ)
    (hltc : ltc r.label = some code)
    (hdef : 0 < r.required - (st.band1.countP (fun c => decide (c = code)) : ℤ)) :
    (candList valid st = [] → processRecord ltc choose valid st r = st) ∧
    (candList valid st ≠ [] →
      processRecord ltc choose valid st r =
        { band1 := (choose (candList valid st)
              (min (r.required - (st.band1.countP (fun c => decide (c = code)) : ℤ)).toNat
                (candList valid st).length)).foldl (fun b q => b.set q code) st.band1,
          band2 := (choose (candList valid st)
              (min (r.required - (st.band1.countP (fun c => decide (c = code)) : ℤ)).toNat
                (candList valid st).length)).foldl (fun b q => b.set q r.biomass) st.band2,
          assigned := (choose (candList valid st)
              (min (r.required - (st.band1.countP (fun c => decide (c = code)) : ℤ)).toNat
                (candList valid st).length)).foldl (fun b q => b.set q true) st.assigned,
          log := st.log ++
            [{ muni_name := r.muni_name, label := r.label, code := code,
               required_pixels := r.required,
               existing_pixels := st.band1.countP (fun c => decide (c = code)),
               newly_assigned :=
                 min (r.required - (st.band1.countP (fun c => decide (c = code)) : ℤ)).toNat
                   (candList valid st).length,
               total_assigned := st.band1.countP (fun c => decide (c = code))
                 + min (r.required - (st.band1.countP (fun c => decide (c = code)) : ℤ)).toNat
                     (candList valid st).length,
               biomass_value := r.biomass }] }) := by
  have h1 : ¬ r.required ≤ 0 := by
    have := Int.ofNat_nonneg (st.band1.countP (fun c => decide (c = code)))
    omega
  have h2 : ¬ r.required - (st.band1.countP (fun c => decide (c = code)) : ℤ) ≤ 0 :=
    not_le.2 hdef
  unfold processRecord
  rw [hltc]
  simp only []
  rw [if_neg h1, if_neg h2]
  constructor
  · intro h
    rw [if_pos (List.isEmpty_iff.2 h)]
  · intro h
    rw [if_neg (by simp [List.isEmpty_iff, h])]

/-- Claim C8, counterexample: a one-cell window whose only cell carries
protected code 10, with a record requiring five pixels of code 1: the
deficit is positive (no matching pixel exists) yet the run records no
assignment-log entry at all, because the empty candidate pool is skipped
before logging. -/
theorem c8_counterexample :
    (assignWithinMuni (fun lbl => if lbl = "Crop" then some 1 else none)
        (fun l n => l.take n) [true] [10] [-9999] [⟨"M", "Crop", 5, 1⟩]).log = [] ∧
    ([10] : List ℕ).countP (fun c => decide (c = 1)) = 0 := by
  constructor
  · norm_num [assignWithinMuni, preserveMatching, sortedLabels, insertLabel, markMatching,
      processRecord, candList, protectedCodes, List.range, List.range.loop, List.dedup,
      List.countP, List.countP.go, List.insert, List.filter]
  · rfl

/-- Claim C8, amended: whenever rule 2 computes a positive deficit for a
record, then if the candidate pool is nonempty it newly assigns exactly
min(deficit, pool size) cells drawn from the pool and appends one log entry
whose newly-assigned count is that number (with existing, total and required
fields as in the source); if the pool is empty the record is skipped
entirely — no cell is written and no log entry is appended.  Neither case is
an error. -/
theorem c8_amended (ltc : String → Option ℕ) (choose : List ℕ → ℕ → List ℕ)
    (valid : List Bool) (st : RasterState) (r : PixelRecord) (code : ℕ)
    (hsub : ∀ l n, ∀ q ∈ choose l n, q ∈ l)
    (hlen : st.assigned.length = st.band1.length)
    (hltc : ltc r.label = some code)
    (hdef : 0 < r.required - (st.band1.countP (fun c => decide (c = code)) : ℤ)) :
    (candList valid st = [] → processRecord ltc choose valid st r = st) ∧
    (candList valid st ≠ [] →
      (processRecord ltc choose valid st r).log
        = st.log ++
          [{ muni_name := r.muni_name, label := r.label, code := code,
             required_pixels := r.required,
             existing_pixels := st.band1.countP (fun c => decide (c = code)),
             newly_assigned :=
               min (r.required - (st.band1.countP (fun c => decide (c = code)) : ℤ)).toNat
                 (candList valid st).length,
             total_assigned := st.band1.countP (fun c => decide (c = code))
               + min (r.required - (st.band1.countP (fun c => decide (c = code)) : ℤ)).toNat
                   (candList valid st).length,
             biomass_value := r.biomass }] ∧
      (∀ q ∈ choose (candList valid st)
          (min (r.required - (st.band1.countP (fun c => decide (c = code)) : ℤ)).toNat
            (candList valid st).length),
        (processRecord ltc choose valid st r).band1.getD q 0 = code ∧
        (processRecord ltc choose valid st r).assigned.getD q false = true)) := by
  obtain ⟨hempty, hfull⟩ := processRecord_run ltc choose valid st r code hltc hdef
  refine ⟨hempty, fun h => ?_⟩
  have heq := hfull h
  refine ⟨by rw [heq], ?_⟩
  intro q hq
  have hqc := hsub _ _ _ hq
  have hqlt : q < st.band1.length := ((mem_candList valid st q).1 hqc).1
  rw [heq]
  constructor
  · exact foldl_set_getD_mem _ _ _ _ _ hq hqlt
  · exact foldl_set_getD_mem _ _ _ _ _ hq (by omega)

/-- Claim C8, witness: a two-cell window with one free cell and a deficit of
three: exactly one cell (the pool size) is newly assigned and the log entry
records newly_assigned one, existing one, total two. -/
theorem c8_witness :
    (processRecord (fun lbl => if lbl = "Crop" then some 5 else none)
        (fun l n => l.take n) [false, true]
        ⟨[5, 2], [-9999, -9999], [false, false], []⟩ ⟨"M", "Crop", 4, 1⟩).log
      = [{ muni_name := "M", label := "Crop", code := 5, required_pixels := 4,
           existing_pixels := 1, newly_assigned := 1, total_assigned := 2,
           biomass_value := 1 }] := by
  have h := (c8_amended (fun lbl => if lbl = "Crop" then some 5 else none)
    (fun l n => l.take n) [false, true]
    ⟨[5, 2], [-9999, -9999], [false, false], []⟩ ⟨"M", "Crop", 4, 1⟩ 5
    (fun l n q hq => List.take_subset n l hq)
    (by rfl) (by rfl) (by norm_num [List.countP, List.countP.go])).2
    (by norm_num [candList, protectedCodes, List.range, List.range.loop, List.filter])
  rw [h.1]
  norm_num [candList, protectedCodes, List.range, List.range.loop, List.filter,
    List.countP, List.countP.go]


/-- Splitting a count over the window into the cells inside and outside the
geometry mask. -/
theorem countP_zip_split (l1 : List ℕ) (l2 : List Bool) (q : ℕ → Bool)
    (hlen : l1.length = l2.length) :
    (l1.zip l2).countP (fun x => q x.1 && x.2)
      + (l1.zip l2).countP (fun x => q x.1 && !x.2) = l1.countP q := by
  induction l1 generalizing l2 with
  | nil => simp
  | cons x xs ih =>
    cases l2 with
    | nil => simp at hlen
    | cons b bs =>
      have h := ih bs (by simpa using hlen)
      simp only [List.zip_cons_cons, List.countP_cons]
      cases b <;> cases hq : q x <;> simp [hq] <;> omega

/-- Claim C10, confirmed: the existing-pixel count that rule 2 subtracts
from the required count is taken over the entire bounding window — cells
outside the geometry mask whose source code matches are counted exactly like
cells inside it — while every cell whose assigned flag changes during the
deficit fill lies inside the geometry mask. -/
theorem c10_window_count (ltc : String → Option ℕ) (choose : List ℕ → ℕ → List ℕ)
    (valid : List Bool) (st : RasterState) (r : PixelRecord) (code : ℕ)
    (hvlen : valid.length = st.band1.length)
    (hsub : ∀ l n, ∀ q ∈ choose l n, q ∈ l)
    (hltc : ltc r.label = some code)
    (hdef : 0 < r.required - (st.band1.countP (fun c => decide (c = code)) : ℤ))
    (hne : candList valid st ≠ []) :
    ((processRecord ltc choose valid st r).log
      = st.log ++
        [{ muni_name := r.muni_name, label := r.label, code := code,
           required_pixels := r.required,
           existing_pixels :=
             (st.band1.zip valid).countP (fun x => decide (x.1 = code) && x.2)
               + (st.band1.zip valid).countP (fun x => decide (x.1 = code) && !x.2),
           newly_assigned :=
             min (r.required
               - (((st.band1.zip valid).countP (fun x => decide (x.1 = code) && x.2)
                 + (st.band1.zip valid).countP (fun x => decide (x.1 = code) && !x.2) : ℕ) : ℤ)).toNat
               (candList valid st).length,
           total_assigned :=
             ((st.band1.zip valid).countP (fun x => decide (x.1 = code) && x.2)
               + (st.band1.zip valid).countP (fun x => decide (x.1 = code) && !x.2))
             + min (r.required
               - (((st.band1.zip valid).countP (fun x => decide (x.1 = code) && x.2)
                 + (st.band1.zip valid).countP (fun x => decide (x.1 = code) && !x.2) : ℕ) : ℤ)).toNat
               (candList valid st).length,
           biomass_value := r.biomass }]) ∧
    (∀ q, (processRecord ltc choose valid st r).assigned.getD q false
        ≠ st.assigned.getD q false → valid.getD q false = true) := by
  have hcnt : (st.band1.zip valid).countP (fun x => decide (x.1 = code) && x.2)
      + (st.band1.zip valid).countP (fun x => decide (x.1 = code) && !x.2)
      = st.band1.countP (fun c => decide (c = code)) :=
    countP_zip_split st.band1 valid (fun c => decide (c = code)) hvlen.symm
  obtain ⟨_, hfull⟩ := processRecord_run ltc choose valid st r code hltc hdef
  have heq := hfull hne
  constructor
  · rw [heq, hcnt]
  · intro q hq
    rw [heq] at hq
    by_cases hmem : q ∈ choose (candList valid st)
        (min (r.required - (st.band1.countP (fun c => decide (c = code)) : ℤ)).toNat
          (candList valid st).length)
    · exact ((mem_candList valid st q).1 (hsub _ _ _ hmem)).2.2.2
    · exfalso
      exact hq (foldl_set_getD_not_mem _ _ _ _ _ hmem)

/-- Claim C10, witness: a two-cell window where the only matching cell lies
outside the geometry mask — it still counts as one existing pixel, so only
two of the three required pixels are a deficit, and the single in-mask
candidate is filled. -/
theorem c10_witness :
    (processRecord (fun lbl => if lbl = "Crop" then some 5 else none)
        (fun l n => l.take n) [false, true]
        ⟨[5, 2], [-9999, -9999], [false, false], []⟩ ⟨"M", "Crop", 3, 1⟩).log
      = [{ muni_name := "M", label := "Crop", code := 5, required_pixels := 3,
           existing_pixels := 1, newly_assigned := 1, total_assigned := 2,
           biomass_value := 1 }] := by
  have h := (c10_window_count (fun lbl => if lbl = "Crop" then some 5 else none)
    (fun l n => l.take n) [false, true]
    ⟨[5, 2], [-9999, -9999], [false, false], []⟩ ⟨"M", "Crop", 3, 1⟩ 5
    (by rfl)
    (fun l n q hq => List.take_subset n l hq)
    (by rfl)
    (by norm_num [List.countP, List.countP.go])
    (by norm_num [candList, protectedCodes, List.range, List.range.loop, List.filter])).1
  rw [h]
  norm_num [candList, protectedCodes, List.range, List.range.loop, List.filter,
    List.countP, List.countP.go, List.zip, List.zipWith]

end AgRes
